import Mathlib

/-!
Random forest over a process group: partitioning, voting and cross-validation

A shallow embedding of

* `randforest-par-mpi/model/forest.c` (`train_model`, `predict_model`,
  `free_random_forest`): the split of the trees of a forest over the ranks of
  the process group, the local vote and the global majority decision;
* `randforest-serial-opt/eval/eval.c` (`eval_model`, `cross_validate`,
  `hyperparameter_search`): the k-fold cross-validation loop and the grid search;
* the loop of `train_model` that broadcasts and sets the seed of each tree;
* `randforest-par-mpi/utils/argparse.c` (`parse_args`) and the choice of the seed in `main`.

C `int` values are integers reduced to 32 bits by `wrap_int`, `size_t` values
are naturals reduced modulo `2^64`, and a `double` is a rational number or a
non-finite value (`none`).
-/

namespace RandForest

/-! ## Machine integers -/

/-- Largest value of a C `int` (32 bits). -/
def INT_MAX : Int := 2147483647

/-- Largest value of a `size_t` (64 bits). -/
def SIZE_MAX : Nat := 18446744073709551615

/-- Reduction of an integer value to a 32-bit two's complement `int`: the result of a conversion
to `int` and of `int` arithmetic. -/
def wrap_int (x : Int) : Int := (x + 2147483648) % 4294967296 - 2147483648

/-- Conversion of an `int` to `size_t`, as done by the usual arithmetic conversions when an `int`
meets a `size_t` operand. -/
def to_size_t (x : Int) : Nat := (x % 18446744073709551616).toNat

/-- Product of two `size_t` values. -/
def size_mul (a b : Nat) : Nat := (a * b) % 18446744073709551616

/-- Sum of two `size_t` values. -/
def size_add (a b : Nat) : Nat := (a + b) % 18446744073709551616

/-- Difference of two `size_t` values. -/
def size_sub (a b : Nat) : Nat := (a + 18446744073709551616 - b % 18446744073709551616) % 18446744073709551616

/-! ## The share of one rank (`forest.c`) -/

/-- The three locals `start_tree`, `end_tree`, `local_n_trees` that `train_model`,
`predict_model` and `free_random_forest` each compute. -/
structure TreeRange where
  start_tree : Int
  end_tree : Int
  local_n_trees : Int
deriving DecidableEq, Repr

/-- Lines 59-68 of `forest.c`, in `train_model`: `n_estimators` is first narrowed to the `int`
`n_trees`, and quotient and remainder are taken in `int` arithmetic (truncating division). -/
def train_model_range (rank numtasks : Int) (n_estimators : Nat) : TreeRange :=
  let n_trees := wrap_int (n_estimators : Int)
  let trees_per_process := wrap_int (Int.tdiv n_trees numtasks)
  let remainder := wrap_int (Int.tmod n_trees numtasks)
  let start_tree :=
    wrap_int (wrap_int (rank * trees_per_process) + (if rank < remainder then rank else remainder))
  let end_tree :=
    wrap_int (wrap_int (start_tree + trees_per_process) + (if rank < remainder then 1 else 0))
  let local_n_trees := wrap_int (end_tree - start_tree)
  { start_tree := start_tree, end_tree := end_tree, local_n_trees := local_n_trees }

/-- Lines 115-121 of `forest.c`, in `predict_model`: `n_estimators` is a `size_t`, so `numtasks`
is converted to `size_t`, quotient and remainder are taken unsigned and then narrowed to `int`. -/
def predict_model_range (rank numtasks : Int) (n_estimators : Nat) : TreeRange :=
  let trees_per_process := wrap_int ((n_estimators / to_size_t numtasks : Nat) : Int)
  let remainder := wrap_int ((n_estimators % to_size_t numtasks : Nat) : Int)
  let start_tree :=
    wrap_int (wrap_int (rank * trees_per_process) + (if rank < remainder then rank else remainder))
  let end_tree :=
    wrap_int (wrap_int (start_tree + trees_per_process) + (if rank < remainder then 1 else 0))
  let local_n_trees := wrap_int (end_tree - start_tree)
  { start_tree := start_tree, end_tree := end_tree, local_n_trees := local_n_trees }

/-- Lines 165-171 of `forest.c`, in `free_random_forest`: as in `predict_model`, with the
`size_t` argument `length` in the place of `n_estimators`. -/
def free_random_forest_range (rank numtasks : Int) (length : Nat) : TreeRange :=
  let trees_per_process := wrap_int ((length / to_size_t numtasks : Nat) : Int)
  let remainder := wrap_int ((length % to_size_t numtasks : Nat) : Int)
  let start_tree :=
    wrap_int (wrap_int (rank * trees_per_process) + (if rank < remainder then rank else remainder))
  let end_tree :=
    wrap_int (wrap_int (start_tree + trees_per_process) + (if rank < remainder then 1 else 0))
  let local_n_trees := wrap_int (end_tree - start_tree)
  { start_tree := start_tree, end_tree := end_tree, local_n_trees := local_n_trees }

/-! ## The vote of the forest (`predict_model`, `forest.c`) -/

/-- Outcome of a call that either returns a value or ends the run with `exit(code)`. -/
inductive Run (α : Type) where
  | exit (code : Int) : Run α
  | ret (value : α) : Run α
deriving DecidableEq, Repr

/-- Lines 123-143 of `forest.c`: the voting loop of `predict_model`, over the predictions that
`make_prediction` writes for the local trees `i = 0, 1, ...` in loop order, from the current
values of the `int` counters `zeroes` and `ones`. A prediction other than 0 and 1 is `exit(1)`. -/
def predict_model_votes : List Int → Int → Int → Run (Int × Int)
  | [], zeroes, ones => Run.ret (zeroes, ones)
  | prediction :: rest, zeroes, ones =>
    if prediction = 0 then predict_model_votes rest (wrap_int (zeroes + 1)) ones
    else if prediction = 1 then predict_model_votes rest zeroes (wrap_int (ones + 1))
    else Run.exit 1

/-- Lines 110-143 of `forest.c`: `predict_model` on one rank up to the reduction. The loop
`for (int i = 0; i < local_n_trees; ++i)` visits `i = 0 .. local_n_trees - 1` (no `i` when
`local_n_trees ≤ 0`); `make_prediction i` is the value `make_prediction` (of `tree.c`) writes
for the local tree `(*random_forest)[i]` and the row. -/
def predict_model_local (rank numtasks : Int) (n_estimators : Nat) (make_prediction : Nat → Int) :
    Run (Int × Int) :=
  let range := predict_model_range rank numtasks n_estimators
  predict_model_votes ((List.range range.local_n_trees.toNat).map make_prediction) 0 0

/-- Lines 108-156 of `forest.c`: `predict_model` on one rank. `MPI_Allreduce` with `MPI_SUM` on
`MPI_INT` delivers the sum of the send buffers of all ranks: the rank's own `zeroes` (`ones`)
plus `peer_zeroes` (`peer_ones`), the sum of what the other ranks send. -/
def predict_model (rank numtasks : Int) (n_estimators : Nat) (make_prediction : Nat → Int)
    (peer_zeroes peer_ones : Int) : Run Int :=
  match predict_model_local rank numtasks n_estimators make_prediction with
  | Run.exit code => Run.exit code
  | Run.ret (zeroes, ones) =>
    let global_zeroes := wrap_int (zeroes + peer_zeroes)
    let global_ones := wrap_int (ones + peer_ones)
    if global_ones > global_zeroes then Run.ret 1 else Run.ret 0

/-- Lines 85 and 100 of `forest.c`: the local tree `i` of a rank is the tree of global index
`tree_id = start_tree + i`. `votes t` is the prediction that the tree of global index `t` gives
for the row at hand, so this is what `make_prediction` writes for the local tree `i`. -/
def local_prediction (votes : Nat → Int) (rank numtasks : Int) (n_estimators : Nat) (i : Nat) :
    Int :=
  votes (wrap_int ((train_model_range rank numtasks n_estimators).start_tree + i)).toNat

/-- The local counters `(zeroes, ones)` of rank `s` in a group of `numtasks` processes. -/
def local_tallies (votes : Nat → Int) (numtasks n_estimators s : Nat) : Run (Int × Int) :=
  predict_model_local s numtasks n_estimators (local_prediction votes s numtasks n_estimators)

/-- The sum-reduction of the counters of a list of ranks. A rank that has called `exit` ends
the run. -/
def reduce_sum : List (Run (Int × Int)) → Run (Int × Int)
  | [] => Run.ret (0, 0)
  | Run.exit code :: _ => Run.exit code
  | Run.ret (zeroes, ones) :: rest =>
    match reduce_sum rest with
    | Run.exit code => Run.exit code
    | Run.ret (sum_zeroes, sum_ones) => Run.ret (zeroes + sum_zeroes, ones + sum_ones)

/-- The two sums over the whole group that the two calls of `MPI_Allreduce` (lines 149-150 of
`forest.c`) compute. -/
def global_tallies (votes : Nat → Int) (numtasks n_estimators : Nat) : Run (Int × Int) :=
  reduce_sum ((List.range numtasks).map (local_tallies votes numtasks n_estimators))

/-- The call of `predict_model` on rank `rank` when all `numtasks` ranks run it on the same
row: the peers are the other ranks of the group. -/
def predict_model_group (votes : Nat → Int) (numtasks n_estimators rank : Nat) : Run Int :=
  match reduce_sum (((List.range numtasks).filter (fun s => s ≠ rank)).map
      (local_tallies votes numtasks n_estimators)) with
  | Run.exit code => Run.exit code
  | Run.ret (peer_zeroes, peer_ones) =>
    predict_model rank numtasks n_estimators (local_prediction votes rank numtasks n_estimators)
      peer_zeroes peer_ones

/-! ## Cross-validation (`eval.c`) -/

/-- The type `struct dim`: the numbers of rows and of columns of a table (`size_t` values). -/
structure dim where
  rows : Nat
  cols : Nat
deriving DecidableEq, Repr

/-- The fields of `ModelContext` that `eval.c` sets and reads (`size_t` values). -/
structure ModelContext where
  testingFoldIdx : Nat
  rowsPerFold : Nat
deriving DecidableEq, Repr

/-- The fields of `RandomForestParameters` that `eval.c` sets (`size_t` values). -/
structure RandomForestParameters where
  n_estimators : Nat
  max_depth : Nat
  min_samples_leaf : Nat
  max_features : Nat
deriving DecidableEq, Repr

/-- Quotient of two `double` values. A finite `double` is a rational number and `none` is NaN;
rounding is left out. A zero divisor gives `none`: the program divides by zero only as `0 / 0`
(in `eval_model`, when `rowsPerFold` is 0), which is NaN. -/
def double_div (a b : Option ℚ) : Option ℚ :=
  match a, b with
  | some x, some y => if y = 0 then none else some (x / y)
  | _, _ => none

/-- Sum of two `double` values; a NaN operand gives NaN. -/
def double_add (a b : Option ℚ) : Option ℚ :=
  match a, b with
  | some x, some y => some (x + y)
  | _, _ => none

/-- Comparison `a > b` of two `double` values; it is false when an operand is NaN. -/
def double_gt (a b : Option ℚ) : Bool :=
  match a, b with
  | some x, some y => decide (x > y)
  | _, _ => false

/-- The conversion `(int)x` of a finite `double`: truncation towards zero. The value is left
unreduced: the conversion is undefined in C when it does not fit in an `int`. -/
def double_to_int (x : ℚ) : Int := Int.tdiv x.num x.den

/-- State of the fill loop of `cross_validate`: the cells of the buffer `train_data` (`none`: not
written) and the index `train_idx`. The buffer is allocated with `train_rows` cells; a write at
an index from `train_rows` on would be out of bounds and shows here as a cell beyond them. -/
structure TrainBuffer (α : Type) where
  train_data : Nat → Option α
  train_idx : Nat

/-- Lines 151-155 of `eval.c`: the fill loop, over the values of `i` in loop order. -/
def fill_train_data {α : Type} (data : Nat → α) (test_start test_end : Nat) :
    List Nat → TrainBuffer α → TrainBuffer α
  | [], buf => buf
  | i :: rest, buf =>
    if i < test_start ∨ i ≥ test_end then
      fill_train_data data test_start test_end rest
        { train_data := Function.update buf.train_data buf.train_idx (some (data i)),
          train_idx := size_add buf.train_idx 1 }
    else fill_train_data data test_start test_end rest buf

/-- What one iteration of the fold loop of `cross_validate` sets up before it trains. -/
structure Fold (α : Type) where
  train_data : Nat → Option α
  train_idx : Nat
  train_dim : dim
  ctx : ModelContext

/-- Lines 146-160 of `eval.c`: the body of the fold loop up to the call of `train_model`. A row is
the pointer `data[i]`. The quotient `rows / k_folds` is a division by zero in C when `k_folds`
is 0; the theorems take `k_folds ≥ 1`. -/
def cross_validate_fold {α : Type} (data : Nat → α) (csv_dim : dim) (k_folds foldIdx : Nat) :
    Fold α :=
  let rows := csv_dim.rows
  let cols := csv_dim.cols
  let rowsPerFold := rows / k_folds
  let train_rows := size_sub rows rowsPerFold
  let test_start := size_mul foldIdx rowsPerFold
  let test_end := size_add test_start rowsPerFold
  let buf := fill_train_data data test_start test_end (List.range rows)
    { train_data := fun _ => none, train_idx := 0 }
  { train_data := buf.train_data, train_idx := buf.train_idx,
    train_dim := { rows := train_rows, cols := cols },
    ctx := { testingFoldIdx := foldIdx, rowsPerFold := rowsPerFold } }

/-- The training view that `train_model` receives: the cells `0 .. train_dim.rows - 1` of
`train_data`. -/
def training_view {α : Type} (fold : Fold α) : List (Option α) :=
  (List.range fold.train_dim.rows).map fold.train_data

/-- Lines 109-110 of `eval.c`: the values of `row_id` that the loop of `eval_model` visits, from
`row_id_offset` up to `row_id_offset + rowsPerFold` (a `size_t` sum), in order. -/
def eval_model_rows (ctx : ModelContext) : List Nat :=
  let row_id_offset := size_mul ctx.testingFoldIdx ctx.rowsPerFold
  List.range' row_id_offset (size_add row_id_offset ctx.rowsPerFold - row_id_offset)

/-- Lines 110-125 of `eval.c`: the loop of `eval_model` over the rows it visits; `predict
row_id` is the outcome of `predict_model` on `data[row_id]` and `ground_truth row_id` is
`(int)data[row_id][cols - 1]`. The counter `num_correct` is a `long` and is at most the number
of rows of the table. -/
def eval_model_loop (predict : Nat → Run Int) (ground_truth : Nat → Int) :
    List Nat → Int → Run Int
  | [], num_correct => Run.ret num_correct
  | row_id :: rest, num_correct =>
    match predict row_id with
    | Run.exit code => Run.exit code
    | Run.ret prediction =>
      if prediction = ground_truth row_id then
        eval_model_loop predict ground_truth rest (num_correct + 1)
      else eval_model_loop predict ground_truth rest num_correct

/-- Lines 96-127 of `eval.c`: `eval_model`. The predictor `predict_model` (of `forest.c`) is
given the forest, `n_estimators` and the row. -/
def eval_model {F : Type} (predict_model : F → Nat → (Nat → ℚ) → Run Int) (random_forest : F)
    (data : Nat → Nat → ℚ) (params : RandomForestParameters) (csv_dim : dim)
    (ctx : ModelContext) : Run (Option ℚ) :=
  match eval_model_loop
      (fun row_id => predict_model random_forest params.n_estimators (data row_id))
      (fun row_id => double_to_int (data row_id (size_sub csv_dim.cols 1)))
      (eval_model_rows ctx) 0 with
  | Run.exit code => Run.exit code
  | Run.ret num_correct =>
    Run.ret (double_div (some (num_correct : ℚ)) (some (ctx.rowsPerFold : ℚ)))

/-- Lines 143-177 of `eval.c`: the fold loop of `cross_validate`, over the values of `foldIdx`
in loop order, from the current value of `sumAccuracy`. `train_model` (of `forest.c`) is given
the buffer, the parameters, `train_dim` and the context. -/
def cross_validate_loop {F : Type}
    (train_model : (Nat → Option (Nat → ℚ)) → RandomForestParameters → dim → ModelContext → F)
    (predict_model : F → Nat → (Nat → ℚ) → Run Int) (data : Nat → Nat → ℚ)
    (params : RandomForestParameters) (csv_dim : dim) (k_folds : Nat) :
    List Nat → Option ℚ → Run (Option ℚ)
  | [], sumAccuracy => Run.ret sumAccuracy
  | foldIdx :: rest, sumAccuracy =>
    let fold := cross_validate_fold data csv_dim k_folds foldIdx
    let random_forest := train_model fold.train_data params fold.train_dim fold.ctx
    match eval_model predict_model random_forest data params csv_dim fold.ctx with
    | Run.exit code => Run.exit code
    | Run.ret accuracy =>
      cross_validate_loop train_model predict_model data params csv_dim k_folds rest
        (double_add sumAccuracy accuracy)

/-- Lines 129-179 of `eval.c`: `cross_validate`. -/
def cross_validate {F : Type}
    (train_model : (Nat → Option (Nat → ℚ)) → RandomForestParameters → dim → ModelContext → F)
    (predict_model : F → Nat → (Nat → ℚ) → Run Int) (data : Nat → Nat → ℚ)
    (params : RandomForestParameters) (csv_dim : dim) (k_folds : Nat) : Run (Option ℚ) :=
  match cross_validate_loop train_model predict_model data params csv_dim k_folds
      (List.range k_folds) (some 0) with
  | Run.exit code => Run.exit code
  | Run.ret sumAccuracy => Run.ret (double_div sumAccuracy (some (k_folds : ℚ)))

/-! ## Hyperparameter search (`eval.c`) -/

/-- The locals of `hyperparameter_search` that change in its loops, with the state `world` of
the rest of the program (the random number generator, the output) that `cross_validate` reads
and changes. -/
structure SearchState (σ : Type) where
  best_accuracy : Option ℚ
  best_n_estimators : Nat
  world : σ

/-- Lines 50-85 of `eval.c`: the inner loop of `hyperparameter_search`, over the values of
`max_depths[j]` in loop order. `cross_validate world params k_folds` is the outcome of the
call `cross_validate(data, &params, csv_dim, k_folds)` made in the state `world`. -/
def hyperparameter_search_depths {σ : Type}
    (cross_validate : σ → RandomForestParameters → Nat → Run (Option ℚ × σ))
    (n_estimators max_features min_samples_leaf k_folds : Nat) :
    List Nat → SearchState σ → Run (SearchState σ)
  | [], st => Run.ret st
  | max_depth :: rest, st =>
    let params : RandomForestParameters :=
      { n_estimators := n_estimators, max_depth := max_depth,
        min_samples_leaf := min_samples_leaf, max_features := max_features }
    match cross_validate st.world params k_folds with
    | Run.exit code => Run.exit code
    | Run.ret (cv_accuracy, world) =>
      if double_gt cv_accuracy st.best_accuracy then
        hyperparameter_search_depths cross_validate n_estimators max_features min_samples_leaf
          k_folds rest
          { best_accuracy := cv_accuracy, best_n_estimators := n_estimators, world := world }
      else
        hyperparameter_search_depths cross_validate n_estimators max_features min_samples_leaf
          k_folds rest
          { best_accuracy := st.best_accuracy, best_n_estimators := st.best_n_estimators,
            world := world }

/-- Lines 46-86 of `eval.c`: the outer loop of `hyperparameter_search`, over the values of
`estimators[i]` in loop order. -/
def hyperparameter_search_estimators {σ : Type}
    (cross_validate : σ → RandomForestParameters → Nat → Run (Option ℚ × σ))
    (max_depths : List Nat) (max_features min_samples_leaf k_folds : Nat) :
    List Nat → SearchState σ → Run (SearchState σ)
  | [], st => Run.ret st
  | n_estimators :: rest, st =>
    match hyperparameter_search_depths cross_validate n_estimators max_features min_samples_leaf
        k_folds max_depths st with
    | Run.exit code => Run.exit code
    | Run.ret st1 =>
      hyperparameter_search_estimators cross_validate max_depths max_features min_samples_leaf
        k_folds rest st1

/-- Lines 16-94 of `eval.c`: `hyperparameter_search`; the result is the state at the final
`printf`, which prints `best_accuracy` and `best_n_estimators`. The initial value `-1` of the
`size_t` `best_n_estimators` is `SIZE_MAX`. -/
def hyperparameter_search {σ : Type}
    (cross_validate : σ → RandomForestParameters → Nat → Run (Option ℚ × σ)) (world : σ) :
    Run (SearchState σ) :=
  let estimators : List Nat := [10, 50, 100]
  let max_depths : List Nat := [3, 7, 10]
  let max_features : Nat := 3
  let min_samples_leaf : Nat := 2
  let k_folds : Nat := 5
  hyperparameter_search_estimators cross_validate max_depths max_features min_samples_leaf
    k_folds estimators
    { best_accuracy := some (-1), best_n_estimators := SIZE_MAX, world := world }

/-! ## The seeds of the trees (`train_model`, `forest.c`) -/

/-- Conversion of an `int` to `unsigned int` (32 bits). -/
def to_unsigned (x : Int) : Nat := (x % 4294967296).toNat

/-- The calls that one rank makes in the loop of `train_model`: a broadcast (with the content
of its buffer `tree_seed` once the call is over), `rand` (with the value drawn) and `srand`
(with its argument). -/
inductive Call where
  | MPI_Bcast (tree_seed : Nat) : Call
  | rand (value : Int) : Call
  | srand (seed : Nat) : Call
deriving DecidableEq, Repr

/-- Lines 85-95 of `forest.c`: the argument of `srand` in the iteration `i` of the loop of
`train_model` on one rank. `uninit i` is the indeterminate initial content of `tree_seed`,
`rand_value i` the value `rand()` returns on rank 0, and `bcast j` the value that the call
number `j` of `MPI_Bcast` (counted from 0 on this rank) delivers when the rank is not the root:
a broadcast with root 0 leaves the buffer of rank 0 as it is and overwrites the buffer of every
other rank. -/
def train_model_tree_seed (rank start_tree : Int) (uninit : Nat → Nat) (rand_value : Nat → Int)
    (bcast : Nat → Nat) (i : Nat) : Nat :=
  let tree_id := wrap_int (start_tree + i)
  let tree_seed0 := uninit i
  let tree_seed1 := if rank = 0 then tree_seed0 else bcast (2 * i)
  let tree_seed2 := if rank = 0 then to_unsigned (rand_value i) else tree_seed1
  let tree_seed3 := if rank = 0 then tree_seed2 else bcast (2 * i + 1)
  (tree_seed3 + to_unsigned tree_id) % 4294967296

/-- Lines 85-95 of `forest.c`: the calls of the iteration `i` of the loop of `train_model` on
one rank, in order. -/
def train_model_iteration (rank start_tree : Int) (uninit : Nat → Nat) (rand_value : Nat → Int)
    (bcast : Nat → Nat) (i : Nat) : List Call :=
  [Call.MPI_Bcast (if rank = 0 then uninit i else bcast (2 * i))]
    ++ (if rank = 0 then [Call.rand (rand_value i)] else [])
    ++ [Call.MPI_Bcast (if rank = 0 then to_unsigned (rand_value i) else bcast (2 * i + 1)),
        Call.srand (train_model_tree_seed rank start_tree uninit rand_value bcast i)]

/-- Lines 83-101 of `forest.c`: the calls of the loop of `train_model` on one rank, for
`i = 0 .. local_n_trees - 1`. -/
def train_model_calls (rank numtasks : Int) (n_estimators : Nat) (uninit : Nat → Nat)
    (rand_value : Nat → Int) (bcast : Nat → Nat) : List Call :=
  (List.range (train_model_range rank numtasks n_estimators).local_n_trees.toNat).flatMap
    (train_model_iteration rank (train_model_range rank numtasks n_estimators).start_tree uninit
      rand_value bcast)

/-- The content of the buffer `tree_seed` of rank 0 at its call number `j` of `MPI_Bcast`: the
first broadcast of the iteration `j / 2` is made before `tree_seed` is assigned, the second one
after `tree_seed = rand()`. -/
def root_buffer (uninit0 : Nat → Nat) (rand_value : Nat → Int) (j : Nat) : Nat :=
  if j % 2 = 0 then uninit0 (j / 2) else to_unsigned (rand_value (j / 2))

/-- The calls of the loop of `train_model` on the rank `rank` of a group, in the first call of
`train_model` of a run: all ranks enter it having made the same collective calls, so the call
number `j` of `MPI_Bcast` of the rank in this call delivers the buffer of rank 0 at its call
number `j`. -/
def train_model_group_calls (numtasks n_estimators : Nat) (uninit : Int → Nat → Nat)
    (rand_value : Nat → Int) (rank : Int) : List Call :=
  train_model_calls rank numtasks n_estimators (uninit rank) rand_value
    (root_buffer (uninit 0) rand_value)

/-- The content of the buffer `tree_seed` of rank 0 at its broadcast number `j` of a run in
which `train_model` is called again and again with the same parameters (once for each fold of
`cross_validate`): rank 0 makes `2 * local_n_trees0` broadcasts in each call, so this is the
broadcast number `j % (2 * local_n_trees0)` of its call number `j / (2 * local_n_trees0)`.
`uninit0 c` and `rand_value c` are the indeterminate contents and the values drawn in the call
number `c`. -/
def root_run_buffer (local_n_trees0 : Nat) (uninit0 : Nat → Nat → Nat)
    (rand_value : Nat → Nat → Int) (j : Nat) : Nat :=
  root_buffer (uninit0 (j / (2 * local_n_trees0))) (rand_value (j / (2 * local_n_trees0)))
    (j % (2 * local_n_trees0))

/-- The argument of `srand` in the iteration `i` of the call number `call` of `train_model` on
the rank `rank` of a group. The broadcasts of a rank are matched with the broadcasts of rank 0
in the order in which each process makes them over the run: the rank has made
`call * (2 * local_n_trees)` broadcasts before this call, so its broadcast number `j` of the
call is its number `call * (2 * local_n_trees) + j` of the run and delivers the buffer of rank
0 at the broadcast of that number. -/
def train_model_run_seed (numtasks n_estimators : Nat) (uninit : Int → Nat → Nat → Nat)
    (rand_value : Nat → Nat → Int) (rank : Int) (call i : Nat) : Nat :=
  let local_n_trees0 := (train_model_range 0 numtasks n_estimators).local_n_trees.toNat
  let local_n_trees := (train_model_range rank numtasks n_estimators).local_n_trees.toNat
  train_model_tree_seed rank (train_model_range rank numtasks n_estimators).start_tree
    (uninit rank call) (rand_value call)
    (fun j => root_run_buffer local_n_trees0 (uninit 0) rand_value
      (call * (2 * local_n_trees) + j)) i

/-! ## The seed of the run (`argparse.c`, `main.c`) -/

/-- The type `struct arguments` of `argparse.h`; `args0` is `args[0]`, `none` when it is
`NULL`. -/
structure arguments where
  args0 : Option String
  rows : Int
  cols : Int
  log_level : Int
  random_seed : Int
deriving DecidableEq, Repr

/-- The test `strncmp(s, key, strlen(key)) == 0`: the string `s` starts with `key`. -/
def starts_with (key s : String) : Bool := key.toList.isPrefixOf s.toList

/-- The string `s + n`: `s` without its first `n` characters. -/
def skip_chars (n : Nat) (s : String) : String := String.mk (s.toList.drop n)

/-- Lines 21-37 of `argparse.c`: the loop of `parse_args` over the arguments `argv[i]`,
`argv[i + 1]`, ... that are left. With one argument left, `i + 1 < argc` is false. The library
functions `atoi` and `atol` are parameters. -/
def parse_args_loop (atoi atol : String → Int) : List String → arguments → arguments
  | [], a => a
  | [x], a =>
    if starts_with "--log_level=" x then { a with log_level := atoi (skip_chars 12 x) }
    else if a.args0 = none then { a with args0 := some x }
    else a
  | x :: v :: rest, a =>
    if x = "--num_rows" then parse_args_loop atoi atol rest { a with rows := atol v }
    else if x = "--num_cols" then parse_args_loop atoi atol rest { a with cols := atol v }
    else if starts_with "--log_level=" x then
      parse_args_loop atoi atol (v :: rest) { a with log_level := atoi (skip_chars 12 x) }
    else if x = "--log_level" then
      parse_args_loop atoi atol rest { a with log_level := atoi v }
    else if x = "--seed" then
      parse_args_loop atoi atol rest { a with random_seed := atoi v }
    else if a.args0 = none then
      parse_args_loop atoi atol (v :: rest) { a with args0 := some x }
    else parse_args_loop atoi atol (v :: rest) a

/-- Lines 11-38 of `argparse.c`: `parse_args` on the command line `argv`, `argv[0]` being the
name of the program. `RAND_MAX` is the constant of `stdlib.h`. -/
def parse_args (atoi atol : String → Int) (RAND_MAX : Int) (argv : List String) : arguments :=
  parse_args_loop atoi atol argv.tail
    { args0 := none, rows := 0, cols := 0, log_level := 1, random_seed := RAND_MAX }

/-- Lines 43-46 of `main.c` (`randforest-par-mpi`; lines 42-44 of `randforest-serial-opt`):
the seed that `main` passes to `srand`; `time_now` is the value of `time(NULL)`. -/
def main_seed (RAND_MAX : Int) (a : arguments) (time_now : Int) : Nat :=
  if a.random_seed ≠ RAND_MAX then to_unsigned a.random_seed else to_unsigned time_now

/-! ## Specification-side definitions -/

/-- The value given with the last `--seed` option of a command line, `none` when there is no
such option. The arguments are read from the left; `--num_rows`, `--num_cols`, `--log_level`
and `--seed` take the next argument as their value, and an option that is the last argument
has no value. -/
def seed_option : List String → Option String
  | [] => none
  | [_] => none
  | x :: v :: rest =>
    if x = "--num_rows" ∨ x = "--num_cols" ∨ x = "--log_level" then seed_option rest
    else if x = "--seed" then
      match seed_option rest with
      | some w => some w
      | none => some v
    else seed_option (v :: rest)

/-- The value that `atoi` returns on a string of decimal digits. -/
def atoi_digits (s : String) : Int :=
  ((s.toList.foldl (fun n c => 10 * n + (c.toNat - 48)) 0 : Nat) : Int)

/-- The number of the calls of `MPI_Bcast` in a list of calls. -/
def bcast_count (calls : List Call) : Nat :=
  calls.countP (fun c => match c with
    | Call.MPI_Bcast _ => true
    | _ => false)

/-- A stand-in for `cross_validate` that returns the accuracy `acc params` and records the
call: the state is the list of the calls made so far, each with its parameters and `k_folds`. -/
def recorded_cross_validate (acc : RandomForestParameters → Option ℚ)
    (calls : List (RandomForestParameters × Nat)) (params : RandomForestParameters)
    (k_folds : Nat) : Run (Option ℚ × List (RandomForestParameters × Nat)) :=
  Run.ret (acc params, calls ++ [(params, k_folds)])

/-- A stand-in for `cross_validate` that returns the accuracy `acc n_estimators max_depth`. -/
def assigned_cross_validate (acc : Nat → Nat → ℚ) (world : Unit)
    (params : RandomForestParameters) (_k_folds : Nat) : Run (Option ℚ × Unit) :=
  Run.ret (some (acc params.n_estimators params.max_depth), world)

/-- Among the configurations `scanned`, in their order, `best` is the accuracy and `n` the tree
count of the first one whose accuracy is the maximum: the configurations before it have a
strictly smaller accuracy, the ones after it none larger. -/
def first_best (acc : Nat → Nat → ℚ) (scanned : List (Nat × Nat)) (best : Option ℚ) (n : Nat) :
    Prop :=
  ∃ pre c post, scanned = pre ++ c :: post ∧ best = some (acc c.1 c.2) ∧ n = c.1 ∧
    (∀ d ∈ pre, acc d.1 d.2 < acc c.1 c.2) ∧ (∀ d ∈ post, acc d.1 d.2 ≤ acc c.1 c.2)

/-- The grid of `hyperparameter_search`, as pairs `(n_estimators, max_depth)` in the order of
the two loops. -/
def search_grid : List (Nat × Nat) :=
  [(10, 3), (10, 7), (10, 10), (50, 3), (50, 7), (50, 10), (100, 3), (100, 7), (100, 10)]

/-- The sum of a list of `double` values, added in order to 0. -/
def double_sum (l : List (Option ℚ)) : Option ℚ := l.foldl double_add (some 0)

/-- The forest that the iteration `foldIdx` of the fold loop of `cross_validate` trains. -/
def fold_forest {F : Type}
    (train_model : (Nat → Option (Nat → ℚ)) → RandomForestParameters → dim → ModelContext → F)
    (data : Nat → Nat → ℚ) (params : RandomForestParameters) (csv_dim : dim)
    (k_folds foldIdx : Nat) : F :=
  train_model (cross_validate_fold data csv_dim k_folds foldIdx).train_data params
    (cross_validate_fold data csv_dim k_folds foldIdx).train_dim
    (cross_validate_fold data csv_dim k_folds foldIdx).ctx

/-- The number of the rows of the test block of the fold `f` whose predicted label `p f
row_id` equals the integer value of the last column, `cols - 1` in `size_t`, of the row. -/
def fold_num_correct (data : Nat → Nat → ℚ) (rows cols k : Nat) (p : Nat → Nat → Int)
    (f : Nat) : Nat :=
  (List.range' (f * (rows / k)) (rows / k)).countP
    (fun row_id => decide (p f row_id = double_to_int (data row_id (size_sub cols 1))))

/-- The row of the table that cell `j` of the training buffer of a fold holds: the rows before
the test block keep their index, the rows after it move down by the size of the block. -/
def kept_row (test_start rowsPerFold j : Nat) : Nat :=
  if j < test_start then j else j + rowsPerFold

/-- The number of the rows `0 .. n - 1` that lie outside the test block. -/
def kept_count (test_start rowsPerFold n : Nat) : Nat :=
  if n ≤ test_start then n else if n ≤ test_start + rowsPerFold then test_start
  else n - rowsPerFold

/-- The first tree of rank `k` when `N` trees are dealt to `P` ranks, in natural numbers. -/
def share_start (P N k : Nat) : Nat := k * (N / P) + min k (N % P)

/-- The votes of the trees of global index `a .. b - 1`. -/
def block_votes (votes : Nat → Int) (a b : Nat) : List Int := (List.range' a (b - a)).map votes

/-- The majority label of a sequence of votes: 1 when the 1s are strictly more than the 0s. -/
def majority_label (seq : List Int) : Int := if seq.count 1 > seq.count 0 then 1 else 0

/-- The boundary between the shares of rank `r - 1` and rank `r`, without machine arithmetic. -/
def boundary (q m r : Int) : Int := r * q + min r m

/-! ## Machine integers: basic facts -/

theorem wrap_int_of_range {x : Int} (h0 : -2147483648 ≤ x) (h1 : x ≤ 2147483647) :
    wrap_int x = x := by
  unfold wrap_int
  omega

theorem to_size_t_of_nonneg {x : Int} (h0 : 0 ≤ x) (h1 : x ≤ 2147483647) :
    ((to_size_t x : Nat) : Int) = x := by
  unfold to_size_t
  omega

theorem train_model_range_eq (r P : Int) (N : Nat) (hP : 1 ≤ P) (hN : (N : Int) ≤ INT_MAX)
    (hr0 : 0 ≤ r) (hr : r < P) :
    train_model_range r P N =
      { start_tree := boundary ((N : Int) / P) ((N : Int) % P) r,
        end_tree := boundary ((N : Int) / P) ((N : Int) % P) (r + 1),
        local_n_trees := (N : Int) / P + (if r < (N : Int) % P then 1 else 0) } := by
  have hN0 : (0 : Int) ≤ N := Int.ofNat_nonneg N
  unfold INT_MAX at hN
  have hq0 : 0 ≤ (N : Int) / P := Int.ediv_nonneg hN0 (by omega)
  have hm0 : 0 ≤ (N : Int) % P := Int.emod_nonneg _ (by omega)
  have hmP : (N : Int) % P < P := Int.emod_lt_of_pos _ (by omega)
  have hdm : P * ((N : Int) / P) + (N : Int) % P = N := Int.ediv_add_emod _ _
  have hrq0 : 0 ≤ r * ((N : Int) / P) := Int.mul_nonneg hr0 hq0
  have hrq : (r + 1) * ((N : Int) / P) ≤ P * ((N : Int) / P) :=
    Int.mul_le_mul_of_nonneg_right (by omega) hq0
  have hexp : (r + 1) * ((N : Int) / P) = r * ((N : Int) / P) + (N : Int) / P := by ring
  unfold train_model_range boundary
  simp only []
  rw [wrap_int_of_range (x := (N : Int)) (by omega) (by omega),
    Int.tdiv_eq_ediv hN0 (by omega), Int.tmod_eq_emod hN0 (by omega)]
  generalize (N : Int) / P = q at *
  generalize (N : Int) % P = m at *
  rw [wrap_int_of_range (x := q) (by omega) (by omega),
    wrap_int_of_range (x := m) (by omega) (by omega)]
  rw [hexp]
  generalize r * q = rq at *
  rw [wrap_int_of_range (x := rq) (by omega) (by omega)]
  unfold wrap_int
  congr 1 <;> split_ifs <;> omega

theorem boundary_le_succ (q m : Int) (hq : 0 ≤ q) (k : Nat) :
    boundary q m (k : Int) ≤ boundary q m ((k + 1 : Nat) : Int) := by
  unfold boundary
  have hexp : (((k + 1 : Nat) : Int)) * q = (k : Int) * q + q := by push_cast; ring
  rw [hexp]
  generalize (k : Int) * q = kq
  push_cast
  omega

theorem boundary_mono (q m : Int) (hq : 0 ≤ q) {j k : Nat} (hjk : j ≤ k) :
    boundary q m (j : Int) ≤ boundary q m (k : Int) := by
  induction k with
  | zero =>
    have hj : j = 0 := by omega
    subst hj
    exact le_refl _
  | succ k ih =>
    rcases Nat.lt_or_ge j (k + 1) with h | h
    · exact le_trans (ih (by omega)) (boundary_le_succ q m hq k)
    · have hj : j = k + 1 := by omega
      subst hj
      exact le_refl _

/-- A value between the first and the last of `P + 1` ascending boundaries lies in one of the
`P` half-open intervals between consecutive boundaries. -/
theorem boundary_exists (q m : Int) (t : Int) (P : Nat)
    (h0 : boundary q m ((0 : Nat) : Int) ≤ t) (hP : t < boundary q m (P : Int)) :
    ∃ k : Nat, k < P ∧ boundary q m (k : Int) ≤ t ∧ t < boundary q m ((k + 1 : Nat) : Int) := by
  induction P with
  | zero => omega
  | succ P ih =>
    rcases lt_or_le t (boundary q m (P : Int)) with h | h
    · obtain ⟨k, hk, hk1, hk2⟩ := ih h
      exact ⟨k, by omega, hk1, hk2⟩
    · exact ⟨P, by omega, h, hP⟩

theorem boundary_unique (q m : Int) (hq : 0 ≤ q) (t : Int) (j k : Nat)
    (hj1 : boundary q m (j : Int) ≤ t) (hj2 : t < boundary q m ((j + 1 : Nat) : Int))
    (hk1 : boundary q m (k : Int) ≤ t) (hk2 : t < boundary q m ((k + 1 : Nat) : Int)) :
    j = k := by
  rcases Nat.lt_trichotomy j k with h | h | h
  · have := boundary_mono q m hq (j := j + 1) (k := k) (by omega)
    omega
  · exact h
  · have := boundary_mono q m hq (j := k + 1) (k := j) (by omega)
    omega

theorem boundary_zero (q m : Int) (hm : 0 ≤ m) : boundary q m 0 = 0 := by
  unfold boundary
  simp [hm]

theorem boundary_last (P : Int) (N : Nat) (hP : 1 ≤ P) :
    boundary ((N : Int) / P) ((N : Int) % P) P = N := by
  have hmP : (N : Int) % P < P := Int.emod_lt_of_pos _ (by omega)
  have hdm : P * ((N : Int) / P) + (N : Int) % P = N := Int.ediv_add_emod _ _
  unfold boundary
  rw [min_eq_right (le_of_lt hmP)]
  exact hdm

/-! ## The partition of the trees over the ranks -/

/-- C1. For a group of `P ≥ 1` processes and `N` trees (`N` an `int`), the ranges
`[start_tree, end_tree)` that `train_model` computes on the ranks `0 .. P-1` partition the tree
indices `0 .. N-1`: the first range starts at 0, each range ends where the next one starts, the
last one ends at `N`, no range is reversed, and every tree index lies in the range of exactly
one rank. -/
theorem train_model_ranges_partition (P N : Nat) (hP : 1 ≤ P) (hN : (N : Int) ≤ INT_MAX) :
    (train_model_range 0 P N).start_tree = 0 ∧
    (∀ r : Nat, r + 1 < P →
      (train_model_range r P N).end_tree = (train_model_range ((r + 1 : Nat) : Int) P N).start_tree) ∧
    (train_model_range ((P - 1 : Nat) : Int) P N).end_tree = N ∧
    (∀ r : Nat, r < P →
      (train_model_range r P N).start_tree ≤ (train_model_range r P N).end_tree) ∧
    (∀ t : Nat, t < N → ∃! r : Nat, r < P ∧
      (train_model_range r P N).start_tree ≤ t ∧ (t : Int) < (train_model_range r P N).end_tree) := by
  have hPi : (1 : Int) ≤ P := by exact_mod_cast hP
  have hq0 : 0 ≤ (N : Int) / P := Int.ediv_nonneg (Int.ofNat_nonneg N) (by omega)
  have hm0 : 0 ≤ (N : Int) % P := Int.emod_nonneg _ (by omega)
  have heq : ∀ r : Nat, r < P → train_model_range r P N =
      { start_tree := boundary ((N : Int) / P) ((N : Int) % P) r,
        end_tree := boundary ((N : Int) / P) ((N : Int) % P) ((r + 1 : Nat) : Int),
        local_n_trees := (N : Int) / P + (if (r : Int) < (N : Int) % P then 1 else 0) } := by
    intro r hr
    rw [train_model_range_eq r P N hPi hN (Int.ofNat_nonneg r) (by exact_mod_cast hr)]
    push_cast
    rfl
  refine ⟨?_, ?_, ?_, ?_, ?_⟩
  · have h := heq 0 (by omega)
    simp only [Nat.cast_zero] at h
    rw [h]
    exact boundary_zero _ _ hm0
  · intro r hr
    rw [heq r (by omega), heq (r + 1) hr]
  · rw [heq (P - 1) (by omega)]
    have hP1 : P - 1 + 1 = P := by omega
    simp only [hP1]
    exact boundary_last P N hPi
  · intro r hr
    rw [heq r hr]
    exact boundary_le_succ _ _ hq0 r
  · intro t ht
    have hlast := boundary_last P N hPi
    have hzero := boundary_zero ((N : Int) / P) ((N : Int) % P) hm0
    obtain ⟨k, hk, hk1, hk2⟩ := boundary_exists ((N : Int) / P) ((N : Int) % P) (t : Int) P
      (by simp only [Nat.cast_zero]; omega) (by omega)
    refine ⟨k, ⟨hk, ?_, ?_⟩, ?_⟩
    · rw [heq k hk]; exact hk1
    · rw [heq k hk]; exact hk2
    · rintro j ⟨hj, hj1, hj2⟩
      rw [heq j hj] at hj1 hj2
      exact boundary_unique _ _ hq0 (t : Int) j k hj1 hj2 hk1 hk2

/-- C1, at 3 processes and 7 trees. -/
theorem train_model_ranges_partition_witness :
    (train_model_range 0 (3 : Nat) 7).start_tree = 0 ∧
    (∀ r : Nat, r + 1 < 3 →
      (train_model_range r (3 : Nat) 7).end_tree =
        (train_model_range ((r + 1 : Nat) : Int) (3 : Nat) 7).start_tree) ∧
    (train_model_range ((3 - 1 : Nat) : Int) (3 : Nat) 7).end_tree = (7 : Nat) ∧
    (∀ r : Nat, r < 3 →
      (train_model_range r (3 : Nat) 7).start_tree ≤ (train_model_range r (3 : Nat) 7).end_tree) ∧
    (∀ t : Nat, t < 7 → ∃! r : Nat, r < 3 ∧
      (train_model_range r (3 : Nat) 7).start_tree ≤ t ∧
      (t : Int) < (train_model_range r (3 : Nat) 7).end_tree) :=
  train_model_ranges_partition 3 7 (by decide) (by decide)

/-- C2. For `P ≥ 1` processes, `N` trees and a rank `r < P`, the number of trees `train_model`
gives rank `r` is `N / P + 1` when `r < N % P` and `N / P` otherwise; the shares of two ranks
differ by at most 1; with 7 trees on 3 processes the shares are 3, 2, 2. -/
theorem train_model_local_n_trees (P N r : Nat) (hP : 1 ≤ P) (hN : (N : Int) ≤ INT_MAX)
    (hr : r < P) :
    (train_model_range r P N).local_n_trees =
      (train_model_range r P N).end_tree - (train_model_range r P N).start_tree ∧
    (train_model_range r P N).local_n_trees =
      ((if r < N % P then N / P + 1 else N / P : Nat) : Int) ∧
    (∀ s : Nat, s < P →
      (train_model_range r P N).local_n_trees ≤ (train_model_range s P N).local_n_trees + 1) ∧
    (train_model_range 0 3 7).local_n_trees = 3 ∧
    (train_model_range 1 3 7).local_n_trees = 2 ∧
    (train_model_range 2 3 7).local_n_trees = 2 := by
  have hPi : (1 : Int) ≤ P := by exact_mod_cast hP
  have hq0 : 0 ≤ (N : Int) / P := Int.ediv_nonneg (Int.ofNat_nonneg N) (by omega)
  have hloc : ∀ s : Nat, s < P → (train_model_range s P N).local_n_trees =
      ((if s < N % P then N / P + 1 else N / P : Nat) : Int) := by
    intro s hs
    rw [train_model_range_eq s P N hPi hN (Int.ofNat_nonneg s) (by exact_mod_cast hs)]
    simp only []
    by_cases h : s < N % P
    · have h2 : (s : Int) < (N : Int) % (P : Int) := by exact_mod_cast h
      simp only [h, h2, if_true]
      push_cast
      rfl
    · have h2 : ¬ (s : Int) < (N : Int) % (P : Int) := by exact_mod_cast h
      simp only [h, h2, if_false]
      push_cast
      simp
  refine ⟨?_, hloc r hr, ?_, by decide, by decide, by decide⟩
  · rw [train_model_range_eq r P N hPi hN (Int.ofNat_nonneg r) (by exact_mod_cast hr)]
    simp only [boundary]
    have hexp : ((r : Int) + 1) * ((N : Int) / P) = (r : Int) * ((N : Int) / P) + (N : Int) / P := by
      ring
    rw [hexp]
    generalize (r : Int) * ((N : Int) / P) = rq
    split_ifs <;> omega
  · intro s hs
    rw [hloc r hr, hloc s hs]
    split_ifs <;> push_cast <;> omega

/-- C2, at rank 0 of 3 processes with 7 trees. -/
theorem train_model_local_n_trees_witness :
    (train_model_range (0 : Nat) (3 : Nat) 7).local_n_trees =
      (train_model_range (0 : Nat) (3 : Nat) 7).end_tree
        - (train_model_range (0 : Nat) (3 : Nat) 7).start_tree ∧
    (train_model_range (0 : Nat) (3 : Nat) 7).local_n_trees =
      ((if 0 < 7 % 3 then 7 / 3 + 1 else 7 / 3 : Nat) : Int) ∧
    (∀ s : Nat, s < 3 →
      (train_model_range (0 : Nat) (3 : Nat) 7).local_n_trees
        ≤ (train_model_range s (3 : Nat) 7).local_n_trees + 1) ∧
    (train_model_range 0 3 7).local_n_trees = 3 ∧
    (train_model_range 1 3 7).local_n_trees = 2 ∧
    (train_model_range 2 3 7).local_n_trees = 2 :=
  train_model_local_n_trees 3 7 0 (by decide) (by decide) (by decide)

/-- C3. For every rank, every group size `P ≥ 1` and every tree count `N ≤ INT_MAX`,
`predict_model` and `free_random_forest` compute the same `start_tree`, `end_tree` and
`local_n_trees` as `train_model`: a rank votes with, and releases, as many trees as it built. -/
theorem tree_range_same_in_train_predict_free (r P : Int) (N : Nat) (hP : 1 ≤ P)
    (hPmax : P ≤ INT_MAX) (hN : (N : Int) ≤ INT_MAX) :
    predict_model_range r P N = train_model_range r P N ∧
    free_random_forest_range r P N = train_model_range r P N ∧
    (predict_model_range r P N).local_n_trees = (train_model_range r P N).local_n_trees ∧
    (free_random_forest_range r P N).local_n_trees = (train_model_range r P N).local_n_trees := by
  have hN0 : (0 : Int) ≤ N := Int.ofNat_nonneg N
  unfold INT_MAX at hN hPmax
  have hP2 : ((to_size_t P : Nat) : Int) = P := to_size_t_of_nonneg (by omega) hPmax
  have hdiv : (((N / to_size_t P : Nat)) : Int) = Int.tdiv (wrap_int (N : Int)) P := by
    rw [wrap_int_of_range (x := (N : Int)) (by omega) (by omega), Int.tdiv_eq_ediv hN0 (by omega)]
    push_cast
    rw [hP2]
  have hmod : (((N % to_size_t P : Nat)) : Int) = Int.tmod (wrap_int (N : Int)) P := by
    rw [wrap_int_of_range (x := (N : Int)) (by omega) (by omega), Int.tmod_eq_emod hN0 (by omega)]
    push_cast
    rw [hP2]
  have h1 : predict_model_range r P N = train_model_range r P N := by
    unfold predict_model_range train_model_range
    rw [hdiv, hmod]
  have h2 : free_random_forest_range r P N = train_model_range r P N := by
    unfold free_random_forest_range train_model_range
    rw [hdiv, hmod]
  exact ⟨h1, h2, by rw [h1], by rw [h2]⟩

/-- C3, at rank 1 of 3 processes with 7 trees. -/
theorem tree_range_same_in_train_predict_free_witness :
    predict_model_range 1 3 7 = train_model_range 1 3 7 ∧
    free_random_forest_range 1 3 7 = train_model_range 1 3 7 ∧
    (predict_model_range 1 3 7).local_n_trees = (train_model_range 1 3 7).local_n_trees ∧
    (free_random_forest_range 1 3 7).local_n_trees = (train_model_range 1 3 7).local_n_trees :=
  tree_range_same_in_train_predict_free 1 3 7 (by decide) (by decide) (by decide)

/-! ## The vote -/

theorem wrap_int_le (x : Int) : wrap_int x ≤ 2147483647 := by
  unfold wrap_int
  omega

/-- The voting loop on predictions that are all 0 or 1: it returns, and the counters grow by the
number of 0s and of 1s (no counter overflows while the number of votes fits in an `int`). -/
theorem predict_model_votes_binary (l : List Int) (hl : ∀ p ∈ l, p = 0 ∨ p = 1) (z o : Int)
    (hz : 0 ≤ z) (ho : 0 ≤ o) (hlen : z + o + l.length ≤ 2147483647) :
    predict_model_votes l z o = Run.ret (z + (l.count 0 : Nat), o + (l.count 1 : Nat)) := by
  induction l generalizing z o with
  | nil => simp [predict_model_votes]
  | cons p rest ih =>
    have hrest : ∀ q ∈ rest, q = 0 ∨ q = 1 := fun q hq => hl q (List.mem_cons_of_mem _ hq)
    simp only [List.length_cons, Nat.cast_add, Nat.cast_one] at hlen
    rcases hl p (List.mem_cons_self _ _) with hp | hp
    · subst hp
      have hw : wrap_int (z + 1) = z + 1 := wrap_int_of_range (by omega) (by omega)
      simp only [predict_model_votes, if_true, hw]
      rw [ih hrest (z + 1) o (by omega) ho (by omega)]
      simp only [List.count_cons_self, Nat.cast_add, Nat.cast_one]
      have h01 : List.count (1 : Int) (0 :: rest) = List.count 1 rest :=
        List.count_cons_of_ne (by decide) rest
      rw [h01]
      congr 2
      omega
    · subst hp
      have hw : wrap_int (o + 1) = o + 1 := wrap_int_of_range (by omega) (by omega)
      have h10 : ¬ ((1 : Int) = 0) := by decide
      simp only [predict_model_votes, h10, if_false, if_true, hw]
      rw [ih hrest z (o + 1) hz (by omega) (by omega)]
      simp only [List.count_cons_self, Nat.cast_add, Nat.cast_one]
      have h01 : List.count (0 : Int) (1 :: rest) = List.count 0 rest :=
        List.count_cons_of_ne (by decide) rest
      rw [h01]
      congr 2
      omega

/-- The voting loop ends the run exactly when some prediction is neither 0 nor 1. -/
theorem predict_model_votes_exit (l : List Int) (z o : Int) :
    predict_model_votes l z o = Run.exit 1 ↔ ∃ p ∈ l, p ≠ 0 ∧ p ≠ 1 := by
  induction l generalizing z o with
  | nil => simp [predict_model_votes]
  | cons p rest ih =>
    by_cases h0 : p = 0
    · subst h0
      simp only [predict_model_votes, if_true, ih, List.mem_cons]
      constructor
      · rintro ⟨q, hq, hq2⟩
        exact ⟨q, Or.inr hq, hq2⟩
      · rintro ⟨q, hq | hq, hq2⟩
        · exact absurd hq hq2.1
        · exact ⟨q, hq, hq2⟩
    · by_cases h1 : p = 1
      · subst h1
        simp only [predict_model_votes, h0, if_false, if_true, ih, List.mem_cons]
        constructor
        · rintro ⟨q, hq, hq2⟩
          exact ⟨q, Or.inr hq, hq2⟩
        · rintro ⟨q, hq | hq, hq2⟩
          · exact absurd hq hq2.2
          · exact ⟨q, hq, hq2⟩
      · simp only [predict_model_votes, h0, h1, if_false]
        constructor
        · intro _
          exact ⟨p, List.mem_cons_self _ _, h0, h1⟩
        · intro _
          trivial

theorem count_zero_add_count_one (l : List Int) (hl : ∀ p ∈ l, p = 0 ∨ p = 1) :
    l.count 0 + l.count 1 = l.length := by
  induction l with
  | nil => rfl
  | cons p rest ih =>
    have hrest : ∀ q ∈ rest, q = 0 ∨ q = 1 := fun q hq => hl q (List.mem_cons_of_mem _ hq)
    have := ih hrest
    rcases hl p (List.mem_cons_self _ _) with hp | hp
    · subst hp
      have h01 : List.count (1 : Int) (0 :: rest) = List.count 1 rest :=
        List.count_cons_of_ne (by decide) rest
      rw [List.count_cons_self, h01, List.length_cons]
      omega
    · subst hp
      have h01 : List.count (0 : Int) (1 :: rest) = List.count 0 rest :=
        List.count_cons_of_ne (by decide) rest
      rw [List.count_cons_self, h01, List.length_cons]
      omega

/-- C4. Whatever the two reductions deliver, `predict_model` returns 1 exactly when
`global_ones > global_zeroes` and 0 otherwise: a tie gives 0, and so does the empty forest,
where both tallies are 0. -/
theorem predict_model_majority (rank numtasks : Int) (n_estimators : Nat)
    (make_prediction : Nat → Int) (peer_zeroes peer_ones zeroes ones : Int)
    (hlocal : predict_model_local rank numtasks n_estimators make_prediction
      = Run.ret (zeroes, ones)) :
    (predict_model rank numtasks n_estimators make_prediction peer_zeroes peer_ones = Run.ret 1
      ↔ wrap_int (ones + peer_ones) > wrap_int (zeroes + peer_zeroes)) ∧
    (predict_model rank numtasks n_estimators make_prediction peer_zeroes peer_ones = Run.ret 0
      ↔ ¬ wrap_int (ones + peer_ones) > wrap_int (zeroes + peer_zeroes)) ∧
    (wrap_int (ones + peer_ones) = wrap_int (zeroes + peer_zeroes) →
      predict_model rank numtasks n_estimators make_prediction peer_zeroes peer_ones
        = Run.ret 0) ∧
    (∀ r P : Int, 0 ≤ r → predict_model r P 0 make_prediction 0 0 = Run.ret 0) := by
  have hne : (Run.ret 1 : Run Int) ≠ Run.ret 0 := by decide
  refine ⟨?_, ?_, ?_, ?_⟩
  · unfold predict_model
    rw [hlocal]
    simp only []
    split_ifs with h
    · simp [h]
    · simp [h, hne.symm]
  · unfold predict_model
    rw [hlocal]
    simp only []
    split_ifs with h
    · simp [h, hne]
    · simp [h]
  · intro heq
    unfold predict_model
    rw [hlocal]
    simp only []
    rw [if_neg (by omega)]
  · intro r P hr
    have hrange : (predict_model_range r P 0).local_n_trees = 0 := by
      unfold predict_model_range
      simp only [Nat.zero_div, Nat.zero_mod, Nat.cast_zero]
      have h0 : wrap_int 0 = 0 := by decide
      have h1 : ¬ r < 0 := by omega
      simp only [h0, h1, if_false, mul_zero, add_zero, sub_self]
    unfold predict_model predict_model_local
    simp only [hrange, Int.toNat_zero, List.range_zero, List.map_nil, predict_model_votes]
    decide

/-- C4, on rank 0 of 1 process with the 2 trees voting 0 and 1: a tie, label 0. -/
theorem predict_model_majority_witness :
    (predict_model 0 1 2 (fun i => (i : Int)) 0 0 = Run.ret 1
      ↔ wrap_int (1 + 0) > wrap_int (1 + 0)) ∧
    (predict_model 0 1 2 (fun i => (i : Int)) 0 0 = Run.ret 0
      ↔ ¬ wrap_int (1 + 0) > wrap_int (1 + 0)) ∧
    (wrap_int (1 + 0) = wrap_int (1 + 0) →
      predict_model 0 1 2 (fun i => (i : Int)) 0 0 = Run.ret 0) ∧
    (∀ r P : Int, 0 ≤ r → predict_model r P 0 (fun i => (i : Int)) 0 0 = Run.ret 0) :=
  predict_model_majority 0 1 2 (fun i => (i : Int)) 0 0 1 1 (by decide)

/-- C6. On a rank, `predict_model` ends the run with `exit(1)` exactly when one of the rank's
local trees gives a prediction that is neither 0 nor 1. When every local prediction is 0 or 1
it returns the label 0 or 1, whatever the reduction delivers, and the two local counters add
up to the number of local trees. -/
theorem predict_model_exit_iff (rank numtasks : Int) (n_estimators : Nat)
    (make_prediction : Nat → Int) (peer_zeroes peer_ones : Int) :
    (predict_model rank numtasks n_estimators make_prediction peer_zeroes peer_ones = Run.exit 1
      ↔ ∃ i : Nat, (i : Int) < (predict_model_range rank numtasks n_estimators).local_n_trees ∧
          make_prediction i ≠ 0 ∧ make_prediction i ≠ 1) ∧
    ((∀ i : Nat, (i : Int) < (predict_model_range rank numtasks n_estimators).local_n_trees →
        make_prediction i = 0 ∨ make_prediction i = 1) →
      (predict_model rank numtasks n_estimators make_prediction peer_zeroes peer_ones = Run.ret 0 ∨
       predict_model rank numtasks n_estimators make_prediction peer_zeroes peer_ones = Run.ret 1) ∧
      ∃ zeroes ones : Int,
        predict_model_local rank numtasks n_estimators make_prediction = Run.ret (zeroes, ones) ∧
        zeroes + ones = max (predict_model_range rank numtasks n_estimators).local_n_trees 0) := by
  have hmem : ∀ p : Int, p ∈ (List.range
      (predict_model_range rank numtasks n_estimators).local_n_trees.toNat).map make_prediction ↔
      ∃ i : Nat, (i : Int) < (predict_model_range rank numtasks n_estimators).local_n_trees ∧
        make_prediction i = p := by
    intro p
    simp only [List.mem_map, List.mem_range]
    constructor
    · rintro ⟨i, hi, hp⟩
      exact ⟨i, by omega, hp⟩
    · rintro ⟨i, hi, hp⟩
      exact ⟨i, by omega, hp⟩
  constructor
  · have hloc : predict_model rank numtasks n_estimators make_prediction peer_zeroes peer_ones
        = Run.exit 1 ↔
        predict_model_local rank numtasks n_estimators make_prediction = Run.exit 1 := by
      unfold predict_model
      cases hres : predict_model_local rank numtasks n_estimators make_prediction with
      | exit code => simp
      | ret value =>
        obtain ⟨z, o⟩ := value
        simp only []
        split_ifs <;> simp
    rw [hloc]
    unfold predict_model_local
    simp only []
    rw [predict_model_votes_exit]
    constructor
    · rintro ⟨p, hp, hp0, hp1⟩
      obtain ⟨i, hi, rfl⟩ := (hmem p).1 hp
      exact ⟨i, hi, hp0, hp1⟩
    · rintro ⟨i, hi, hp0, hp1⟩
      exact ⟨make_prediction i, (hmem _).2 ⟨i, hi, rfl⟩, hp0, hp1⟩
  · intro hall
    have hbin : ∀ p ∈ (List.range
        (predict_model_range rank numtasks n_estimators).local_n_trees.toNat).map make_prediction,
        p = 0 ∨ p = 1 := by
      intro p hp
      obtain ⟨i, hi, rfl⟩ := (hmem p).1 hp
      exact hall i hi
    have hle : (predict_model_range rank numtasks n_estimators).local_n_trees ≤ 2147483647 := by
      unfold predict_model_range
      exact wrap_int_le _
    have hlocal : predict_model_local rank numtasks n_estimators make_prediction = Run.ret
        ((0 : Int) + ((((List.range
            (predict_model_range rank numtasks n_estimators).local_n_trees.toNat).map
            make_prediction).count 0 : Nat) : Int),
         (0 : Int) + ((((List.range
            (predict_model_range rank numtasks n_estimators).local_n_trees.toNat).map
            make_prediction).count 1 : Nat) : Int)) := by
      unfold predict_model_local
      simp only []
      apply predict_model_votes_binary _ hbin 0 0 (le_refl _) (le_refl _)
      simp only [List.length_map, List.length_range]
      omega
    constructor
    · unfold predict_model
      rw [hlocal]
      simp only []
      split_ifs
      · exact Or.inr rfl
      · exact Or.inl rfl
    · refine ⟨_, _, hlocal, ?_⟩
      have hcount := count_zero_add_count_one _ hbin
      simp only [List.length_map, List.length_range] at hcount
      omega

/-! ## The vote of the whole group -/

theorem share_start_zero (P N : Nat) : share_start P N 0 = 0 := by
  simp [share_start]

theorem share_start_le_succ (P N k : Nat) : share_start P N k ≤ share_start P N (k + 1) := by
  unfold share_start
  generalize N / P = q
  generalize N % P = m
  have hexp : (k + 1) * q = k * q + q := by ring
  rw [hexp]
  generalize k * q = kq
  omega

theorem share_start_last (P N : Nat) (hP : 1 ≤ P) : share_start P N P = N := by
  unfold share_start
  have hmP : N % P < P := Nat.mod_lt _ (by omega)
  have hdm : P * (N / P) + N % P = N := Nat.div_add_mod N P
  rw [min_eq_right (le_of_lt hmP)]
  exact hdm

theorem share_start_le (P N k : Nat) (hP : 1 ≤ P) (hk : k ≤ P) : share_start P N k ≤ N := by
  induction hk using Nat.decreasingInduction with
  | self => exact le_of_eq (share_start_last P N hP)
  | of_succ j _ ih => exact le_trans (share_start_le_succ P N j) ih

theorem boundary_eq_share_start (P N k : Nat) :
    boundary ((N : Int) / P) ((N : Int) % P) (k : Int) = (share_start P N k : Nat) := by
  unfold boundary share_start
  push_cast
  rfl

theorem train_model_range_share (P N k : Nat) (hP : 1 ≤ P) (hN : (N : Int) ≤ INT_MAX)
    (hk : k < P) :
    train_model_range k P N =
      { start_tree := (share_start P N k : Nat),
        end_tree := (share_start P N (k + 1) : Nat),
        local_n_trees := (share_start P N (k + 1) : Nat) - (share_start P N k : Nat) } := by
  have hPi : (1 : Int) ≤ P := by exact_mod_cast hP
  rw [train_model_range_eq k P N hPi hN (Int.ofNat_nonneg k) (by exact_mod_cast hk)]
  have h1 := boundary_eq_share_start P N k
  have h2 := boundary_eq_share_start P N (k + 1)
  simp only [Nat.cast_add, Nat.cast_one] at h2
  rw [h1, h2]
  congr 1
  unfold share_start
  have hexp : (k + 1) * (N / P) = k * (N / P) + N / P := by ring
  rw [hexp]
  have hmod : (N : Int) % (P : Int) = ((N % P : Nat) : Int) := by push_cast; rfl
  have hdiv : (N : Int) / (P : Int) = ((N / P : Nat) : Int) := by push_cast; rfl
  rw [hmod, hdiv]
  generalize k * (N / P) = kq
  generalize N / P = q
  generalize N % P = m
  split_ifs <;> omega

theorem reduce_sum_ret (f g : Nat → Int) (l : List Nat) :
    reduce_sum (l.map (fun s => Run.ret (f s, g s))) = Run.ret ((l.map f).sum, (l.map g).sum) := by
  induction l with
  | nil => rfl
  | cons a rest ih => simp only [List.map_cons, reduce_sum, ih, List.sum_cons]

theorem sum_filter_ne (f : Nat → Int) (P r : Nat) (hr : r < P) :
    f r + (((List.range P).filter (fun s => s ≠ r)).map f).sum = ((List.range P).map f).sum := by
  induction P with
  | zero => omega
  | succ P ih =>
    rw [List.range_succ, List.filter_append, List.map_append, List.map_append, List.sum_append,
      List.sum_append]
    rcases Nat.lt_or_ge r P with h | h
    · have hP : P ≠ r := by omega
      have hthis := ih h
      simp only [ne_eq] at hthis
      simp only [List.filter_cons, hP, ne_eq, not_false_eq_true, decide_True, if_true,
        List.filter_nil, List.map_cons, List.map_nil, List.sum_cons, List.sum_nil]
      omega
    · have hP : r = P := by omega
      subst hP
      have hall : (List.range r).filter (fun s => s ≠ r) = List.range r := by
        rw [List.filter_eq_self]
        intro a ha
        rw [List.mem_range] at ha
        simp only [ne_eq, decide_not, Bool.not_eq_eq_eq_not, Bool.not_true, decide_eq_false_iff_not]
        omega
      rw [hall]
      simp only [List.filter_cons, ne_eq, not_true_eq_false, decide_False, List.filter_nil,
        List.map_cons, List.map_nil, List.sum_cons, List.sum_nil]
      simp only [Bool.false_eq_true, if_false, List.map_nil, List.sum_nil]
      omega

theorem predict_model_range_eq_train (r P : Int) (N : Nat) (hP : 1 ≤ P) (hPmax : P ≤ INT_MAX)
    (hN : (N : Int) ≤ INT_MAX) : predict_model_range r P N = train_model_range r P N := by
  have hN0 : (0 : Int) ≤ N := Int.ofNat_nonneg N
  unfold INT_MAX at hN hPmax
  have hP2 : ((to_size_t P : Nat) : Int) = P := to_size_t_of_nonneg (by omega) hPmax
  have hdiv : (((N / to_size_t P : Nat)) : Int) = Int.tdiv (wrap_int (N : Int)) P := by
    rw [wrap_int_of_range (x := (N : Int)) (by omega) (by omega), Int.tdiv_eq_ediv hN0 (by omega)]
    push_cast
    rw [hP2]
  have hmod : (((N % to_size_t P : Nat)) : Int) = Int.tmod (wrap_int (N : Int)) P := by
    rw [wrap_int_of_range (x := (N : Int)) (by omega) (by omega), Int.tmod_eq_emod hN0 (by omega)]
    push_cast
    rw [hP2]
  unfold predict_model_range train_model_range
  rw [hdiv, hmod]

theorem block_votes_append (votes : Nat → Int) (a b c : Nat) (hab : a ≤ b) (hbc : b ≤ c) :
    block_votes votes a c = block_votes votes a b ++ block_votes votes b c := by
  unfold block_votes
  rw [← List.map_append]
  have h := List.range'_append_1 a (b - a) (c - b)
  have h1 : a + (b - a) = b := by omega
  have h2 : c - b + (b - a) = c - a := by omega
  rw [h1, h2] at h
  rw [h]

theorem block_votes_length (votes : Nat → Int) (a b : Nat) :
    (block_votes votes a b).length = b - a := by
  simp [block_votes]

theorem block_votes_binary (votes : Nat → Int) (N a b : Nat) (hb : b ≤ N)
    (hvotes : ∀ t : Nat, t < N → votes t = 0 ∨ votes t = 1) :
    ∀ p ∈ block_votes votes a b, p = 0 ∨ p = 1 := by
  intro p hp
  unfold block_votes at hp
  rw [List.mem_map] at hp
  obtain ⟨t, ht, rfl⟩ := hp
  rw [List.mem_range'_1] at ht
  exact hvotes t (by omega)

/-- On binary votes the local counters of rank `s` are the numbers of 0s and of 1s among the
votes of the trees of the rank. -/
theorem local_tallies_eq (votes : Nat → Int) (P N s : Nat) (hP : 1 ≤ P)
    (hPmax : (P : Int) ≤ INT_MAX) (hN : (N : Int) ≤ INT_MAX) (hs : s < P)
    (hvotes : ∀ t : Nat, t < N → votes t = 0 ∨ votes t = 1) :
    local_tallies votes P N s = Run.ret
      ((((block_votes votes (share_start P N s) (share_start P N (s + 1))).count 0 : Nat) : Int),
       (((block_votes votes (share_start P N s) (share_start P N (s + 1))).count 1 : Nat) : Int)) := by
  have hPi : (1 : Int) ≤ P := by exact_mod_cast hP
  have hmono := share_start_le_succ P N s
  have hle := share_start_le P N (s + 1) hP (by omega)
  have hN2 : (N : Int) ≤ 2147483647 := hN
  unfold local_tallies predict_model_local
  simp only []
  rw [predict_model_range_eq_train s P N hPi hPmax hN, train_model_range_share P N s hP hN hs]
  simp only []
  have hlen : (((share_start P N (s + 1) : Nat) : Int) - ((share_start P N s : Nat) : Int)).toNat
      = share_start P N (s + 1) - share_start P N s := by omega
  rw [hlen]
  have hlist : (List.range (share_start P N (s + 1) - share_start P N s)).map
      (local_prediction votes s P N)
      = block_votes votes (share_start P N s) (share_start P N (s + 1)) := by
    unfold block_votes
    rw [List.range'_eq_map_range, List.map_map]
    apply List.map_congr_left
    intro i hi
    rw [List.mem_range] at hi
    unfold local_prediction
    rw [train_model_range_share P N s hP hN hs]
    simp only [Function.comp]
    have hw : wrap_int (((share_start P N s : Nat) : Int) + (i : Int))
        = ((share_start P N s + i : Nat) : Int) := by
      rw [wrap_int_of_range (by omega) (by omega)]
      push_cast
      rfl
    rw [hw, Int.toNat_ofNat]
  rw [hlist]
  have hbin := block_votes_binary votes N (share_start P N s) (share_start P N (s + 1)) hle hvotes
  have hlength := block_votes_length votes (share_start P N s) (share_start P N (s + 1))
  rw [predict_model_votes_binary _ hbin 0 0 (le_refl _) (le_refl _) (by omega)]
  simp only [zero_add]

theorem sum_block_counts (votes : Nat → Int) (v : Int) (P N k : Nat) :
    ((List.range k).map (fun s =>
      (((block_votes votes (share_start P N s) (share_start P N (s + 1))).count v : Nat) : Int))).sum
      = (((block_votes votes 0 (share_start P N k)).count v : Nat) : Int) := by
  induction k with
  | zero => simp [share_start_zero, block_votes]
  | succ k ih =>
    rw [List.range_succ, List.map_append, List.sum_append, ih,
      block_votes_append votes 0 (share_start P N k) (share_start P N (k + 1)) (Nat.zero_le _)
        (share_start_le_succ P N k),
      List.count_append]
    simp

theorem block_votes_all (votes : Nat → Int) (N : Nat) :
    block_votes votes 0 N = (List.range N).map votes := by
  unfold block_votes
  rw [Nat.sub_zero, List.range_eq_range']

theorem sum_all_counts (votes : Nat → Int) (v : Int) (P N : Nat) (hP : 1 ≤ P) :
    ((List.range P).map (fun s =>
      (((block_votes votes (share_start P N s) (share_start P N (s + 1))).count v : Nat) : Int))).sum
      = ((((List.range N).map votes).count v : Nat) : Int) := by
  rw [sum_block_counts votes v P N P, share_start_last P N hP, block_votes_all]

theorem global_tallies_eq (votes : Nat → Int) (P N : Nat) (hP : 1 ≤ P)
    (hPmax : (P : Int) ≤ INT_MAX) (hN : (N : Int) ≤ INT_MAX)
    (hvotes : ∀ t : Nat, t < N → votes t = 0 ∨ votes t = 1) :
    global_tallies votes P N = Run.ret
      (((((List.range N).map votes).count 0 : Nat) : Int),
       ((((List.range N).map votes).count 1 : Nat) : Int)) := by
  unfold global_tallies
  have hmap : (List.range P).map (local_tallies votes P N) = (List.range P).map (fun s => Run.ret
      ((((block_votes votes (share_start P N s) (share_start P N (s + 1))).count 0 : Nat) : Int),
       (((block_votes votes (share_start P N s) (share_start P N (s + 1))).count 1 : Nat) : Int))) := by
    apply List.map_congr_left
    intro s hs
    rw [List.mem_range] at hs
    exact local_tallies_eq votes P N s hP hPmax hN hs hvotes
  rw [hmap, reduce_sum_ret, sum_all_counts votes 0 P N hP, sum_all_counts votes 1 P N hP]

theorem predict_model_of_local (rank numtasks : Int) (n_estimators : Nat)
    (make_prediction : Nat → Int) (peer_zeroes peer_ones zeroes ones : Int)
    (hlocal : predict_model_local rank numtasks n_estimators make_prediction
      = Run.ret (zeroes, ones)) :
    predict_model rank numtasks n_estimators make_prediction peer_zeroes peer_ones =
      if wrap_int (ones + peer_ones) > wrap_int (zeroes + peer_zeroes) then Run.ret 1
      else Run.ret 0 := by
  unfold predict_model
  rw [hlocal]

theorem predict_model_group_eq (votes : Nat → Int) (P N r : Nat) (hP : 1 ≤ P)
    (hPmax : (P : Int) ≤ INT_MAX) (hN : (N : Int) ≤ INT_MAX) (hr : r < P)
    (hvotes : ∀ t : Nat, t < N → votes t = 0 ∨ votes t = 1) :
    predict_model_group votes P N r = Run.ret (majority_label ((List.range N).map votes)) := by
  have hN2 : (N : Int) ≤ 2147483647 := hN
  have hbin : ∀ p ∈ (List.range N).map votes, p = 0 ∨ p = 1 := by
    rw [← block_votes_all]
    exact block_votes_binary votes N 0 N (le_refl _) hvotes
  have hcount := count_zero_add_count_one _ hbin
  simp only [List.length_map, List.length_range] at hcount
  unfold predict_model_group
  have hmap : ((List.range P).filter (fun s => s ≠ r)).map (local_tallies votes P N)
      = ((List.range P).filter (fun s => s ≠ r)).map (fun s => Run.ret
      ((((block_votes votes (share_start P N s) (share_start P N (s + 1))).count 0 : Nat) : Int),
       (((block_votes votes (share_start P N s) (share_start P N (s + 1))).count 1 : Nat) : Int))) := by
    apply List.map_congr_left
    intro s hs
    have hs2 := (List.mem_filter.1 hs).1
    rw [List.mem_range] at hs2
    exact local_tallies_eq votes P N s hP hPmax hN hs2 hvotes
  rw [hmap, reduce_sum_ret]
  simp only []
  have hown := local_tallies_eq votes P N r hP hPmax hN hr hvotes
  unfold local_tallies at hown
  rw [predict_model_of_local _ _ _ _ _ _ _ _ hown]
  have h0 := sum_filter_ne (fun s =>
    (((block_votes votes (share_start P N s) (share_start P N (s + 1))).count 0 : Nat) : Int))
    P r hr
  have h1 := sum_filter_ne (fun s =>
    (((block_votes votes (share_start P N s) (share_start P N (s + 1))).count 1 : Nat) : Int))
    P r hr
  simp only [] at h0 h1
  rw [h0, h1, sum_all_counts votes 0 P N hP,
    sum_all_counts votes 1 P N hP, wrap_int_of_range (by omega) (by omega),
    wrap_int_of_range (by omega) (by omega)]
  unfold majority_label
  split_ifs with h1 h2 h2
  · rfl
  · omega
  · omega
  · rfl

/-- C5. For votes in {0,1} of `N` trees and a group of `P ≥ 1` processes, the sums over all
ranks of the local zero-counts and one-counts are the numbers of 0s and of 1s in the whole
sequence of votes, which add up to `N`; and on every rank `predict_model` returns the majority
label of the whole sequence (ties to 0), the same label as a run on a single process. -/
theorem predict_model_group_majority (votes : Nat → Int) (P N : Nat) (hP : 1 ≤ P)
    (hPmax : (P : Int) ≤ INT_MAX) (hN : (N : Int) ≤ INT_MAX)
    (hvotes : ∀ t : Nat, t < N → votes t = 0 ∨ votes t = 1) :
    global_tallies votes P N = Run.ret
      (((((List.range N).map votes).count 0 : Nat) : Int),
       ((((List.range N).map votes).count 1 : Nat) : Int)) ∧
    ((List.range N).map votes).count 0 + ((List.range N).map votes).count 1 = N ∧
    (∀ r : Nat, r < P →
      predict_model_group votes P N r = Run.ret (majority_label ((List.range N).map votes))) ∧
    (∀ r : Nat, r < P → predict_model_group votes P N r = predict_model_group votes 1 N 0) := by
  have hbin : ∀ p ∈ (List.range N).map votes, p = 0 ∨ p = 1 := by
    rw [← block_votes_all]
    exact block_votes_binary votes N 0 N (le_refl _) hvotes
  have hcount := count_zero_add_count_one _ hbin
  simp only [List.length_map, List.length_range] at hcount
  have hone : predict_model_group votes 1 N 0
      = Run.ret (majority_label ((List.range N).map votes)) :=
    predict_model_group_eq votes 1 N 0 (le_refl _) (by decide) hN (by decide) hvotes
  refine ⟨global_tallies_eq votes P N hP hPmax hN hvotes, hcount, ?_, ?_⟩
  · intro r hr
    exact predict_model_group_eq votes P N r hP hPmax hN hr hvotes
  · intro r hr
    rw [hone]
    exact predict_model_group_eq votes P N r hP hPmax hN hr hvotes

/-- C5, for the 7 votes 0, 1, 0, 1, 0, 1, 0 on 3 processes. -/
theorem predict_model_group_majority_witness :
    global_tallies (fun t => (t : Int) % 2) 3 7 = Run.ret
      (((((List.range 7).map (fun t => (t : Int) % 2)).count 0 : Nat) : Int),
       ((((List.range 7).map (fun t => (t : Int) % 2)).count 1 : Nat) : Int)) ∧
    ((List.range 7).map (fun t => (t : Int) % 2)).count 0
      + ((List.range 7).map (fun t => (t : Int) % 2)).count 1 = 7 ∧
    (∀ r : Nat, r < 3 → predict_model_group (fun t => (t : Int) % 2) 3 7 r
      = Run.ret (majority_label ((List.range 7).map (fun t => (t : Int) % 2)))) ∧
    (∀ r : Nat, r < 3 → predict_model_group (fun t => (t : Int) % 2) 3 7 r
      = predict_model_group (fun t => (t : Int) % 2) 1 7 0) :=
  predict_model_group_majority (fun t => (t : Int) % 2) 3 7 (by decide) (by decide) (by decide)
    (by intro t _; show (t : Int) % 2 = 0 ∨ (t : Int) % 2 = 1; omega)

/-- C6, on rank 0 of 1 process with 2 trees that vote 0 and 1. -/
theorem predict_model_exit_iff_witness :
    (predict_model 0 1 2 (fun i => (i : Int) % 2) 0 0 = Run.ret 0 ∨
     predict_model 0 1 2 (fun i => (i : Int) % 2) 0 0 = Run.ret 1) ∧
    ∃ zeroes ones : Int,
      predict_model_local 0 1 2 (fun i => (i : Int) % 2) = Run.ret (zeroes, ones) ∧
      zeroes + ones = max (predict_model_range 0 1 2).local_n_trees 0 :=
  (predict_model_exit_iff 0 1 2 (fun i => (i : Int) % 2) 0 0).2
    (by intro i _; show (i : Int) % 2 = 0 ∨ (i : Int) % 2 = 1; omega)

/-! ## Cross-validation: the training view of a fold -/

theorem size_add_of_lt {a b : Nat} (h : a + b ≤ SIZE_MAX) : size_add a b = a + b := by
  unfold SIZE_MAX at h
  unfold size_add
  omega

theorem size_mul_of_le {a b : Nat} (h : a * b ≤ SIZE_MAX) : size_mul a b = a * b := by
  unfold SIZE_MAX at h
  unfold size_mul
  omega

theorem size_sub_of_le {a b : Nat} (hb : b ≤ a) (ha : a ≤ SIZE_MAX) : size_sub a b = a - b := by
  unfold SIZE_MAX at ha
  unfold size_sub
  omega

theorem fill_train_data_append {α : Type} (data : Nat → α) (ts te : Nat) (l1 l2 : List Nat)
    (buf : TrainBuffer α) :
    fill_train_data data ts te (l1 ++ l2) buf
      = fill_train_data data ts te l2 (fill_train_data data ts te l1 buf) := by
  induction l1 generalizing buf with
  | nil => rfl
  | cons i rest ih =>
    simp only [List.cons_append, fill_train_data]
    split_ifs
    · exact ih _
    · exact ih _

theorem kept_count_succ_of_kept (ts rpf n : Nat) (h : n < ts ∨ n ≥ ts + rpf) :
    kept_count ts rpf (n + 1) = kept_count ts rpf n + 1 := by
  unfold kept_count
  split_ifs <;> omega

theorem kept_count_succ_of_test (ts rpf n : Nat) (h : ¬ (n < ts ∨ n ≥ ts + rpf)) :
    kept_count ts rpf (n + 1) = kept_count ts rpf n := by
  unfold kept_count
  split_ifs <;> omega

theorem kept_row_kept_count (ts rpf n : Nat) (h : n < ts ∨ n ≥ ts + rpf) :
    kept_row ts rpf (kept_count ts rpf n) = n := by
  unfold kept_row kept_count
  split_ifs <;> omega

theorem kept_count_le (ts rpf n : Nat) : kept_count ts rpf n ≤ n := by
  unfold kept_count
  split_ifs <;> omega

/-- The state of the fill loop after the rows `0 .. n - 1`: `train_idx` is the number of rows
outside the test block, and the cells below it hold these rows in their order. -/
theorem fill_train_data_range {α : Type} (data : Nat → α) (ts rpf n : Nat) (hn : n ≤ SIZE_MAX) :
    (fill_train_data data ts (ts + rpf) (List.range n)
        { train_data := fun _ => none, train_idx := 0 }).train_idx = kept_count ts rpf n ∧
    ∀ j : Nat, (fill_train_data data ts (ts + rpf) (List.range n)
        { train_data := fun _ => none, train_idx := 0 }).train_data j
      = if j < kept_count ts rpf n then some (data (kept_row ts rpf j)) else none := by
  induction n with
  | zero =>
    constructor
    · simp [fill_train_data, kept_count]
    · intro j
      simp [fill_train_data, kept_count]
  | succ n ih =>
    obtain ⟨ih1, ih2⟩ := ih (by omega)
    rw [List.range_succ, fill_train_data_append]
    generalize fill_train_data data ts (ts + rpf) (List.range n)
      { train_data := fun _ => none, train_idx := 0 } = buf at ih1 ih2
    have hle := kept_count_le ts rpf n
    by_cases h : n < ts ∨ n ≥ ts + rpf
    · have hstep : fill_train_data data ts (ts + rpf) [n] buf =
          { train_data := Function.update buf.train_data buf.train_idx (some (data n)),
            train_idx := size_add buf.train_idx 1 } := by
        simp only [fill_train_data, h, if_true]
      rw [hstep, kept_count_succ_of_kept ts rpf n h]
      simp only []
      rw [ih1, size_add_of_lt (by omega)]
      refine ⟨rfl, ?_⟩
      intro j
      rw [Function.update_apply, ih2 j]
      by_cases hj : j = kept_count ts rpf n
      · subst hj
        rw [if_pos rfl, if_pos (Nat.lt_succ_self _), kept_row_kept_count ts rpf n h]
      · rw [if_neg hj]
        by_cases hj2 : j < kept_count ts rpf n
        · rw [if_pos hj2, if_pos (by omega)]
        · rw [if_neg hj2, if_neg (by omega)]
    · have hstep : fill_train_data data ts (ts + rpf) [n] buf = buf := by
        simp only [fill_train_data, h, if_false]
      rw [hstep, kept_count_succ_of_test ts rpf n h]
      exact ⟨ih1, ih2⟩

theorem fold_block_le (rows k f : Nat) (hf : f < k) :
    f * (rows / k) + rows / k ≤ rows := by
  have h1 : (f + 1) * (rows / k) ≤ k * (rows / k) := Nat.mul_le_mul_right _ (by omega)
  have h2 : k * (rows / k) ≤ rows := Nat.mul_div_le rows k
  have h3 : (f + 1) * (rows / k) = f * (rows / k) + rows / k := by ring
  omega

theorem fold_arith (rows rpf f : Nat) (hle : f * rpf + rpf ≤ rows) (hrows : rows ≤ SIZE_MAX) :
    size_mul f rpf = f * rpf ∧ size_add (f * rpf) rpf = f * rpf + rpf ∧
    size_sub rows rpf = rows - rpf ∧ kept_count (f * rpf) rpf rows = rows - rpf := by
  refine ⟨size_mul_of_le (by omega), size_add_of_lt (by omega),
    size_sub_of_le (by omega) hrows, ?_⟩
  unfold kept_count
  split_ifs <;> omega

/-- What the fold loop sets up for the fold `f`, without machine arithmetic. -/
theorem cross_validate_fold_eq {α : Type} (data : Nat → α) (rows cols k f : Nat) (hf : f < k)
    (hrows : rows ≤ SIZE_MAX) :
    (cross_validate_fold data { rows := rows, cols := cols } k f).train_dim
      = { rows := rows - rows / k, cols := cols } ∧
    (cross_validate_fold data { rows := rows, cols := cols } k f).ctx
      = { testingFoldIdx := f, rowsPerFold := rows / k } ∧
    (cross_validate_fold data { rows := rows, cols := cols } k f).train_idx = rows - rows / k ∧
    ∀ j : Nat, (cross_validate_fold data { rows := rows, cols := cols } k f).train_data j
      = if j < rows - rows / k then some (data (kept_row (f * (rows / k)) (rows / k) j))
        else none := by
  have hle := fold_block_le rows k f hf
  unfold cross_validate_fold
  simp only []
  generalize rows / k = rpf at hle ⊢
  obtain ⟨a1, a2, a3, a4⟩ := fold_arith rows rpf f hle hrows
  have hfill := fill_train_data_range data (f * rpf) rpf rows hrows
  rw [a4] at hfill
  rw [a1, a2, a3]
  exact ⟨rfl, trivial, hfill.1, hfill.2⟩

theorem count_of_nodup_mem {α : Type} [BEq α] [LawfulBEq α] {a : α} {l : List α}
    (hn : l.Nodup) (hm : a ∈ l) : l.count a = 1 := by
  induction l with
  | nil => cases hm
  | cons b t ih =>
    rw [List.nodup_cons] at hn
    rw [List.count_cons]
    by_cases hb : b = a
    · subst hb
      rw [List.count_eq_zero_of_not_mem hn.1]
      simp
    · have hmt : a ∈ t := by
        rcases List.mem_cons.1 hm with h | h
        · exact absurd h.symm hb
        · exact h
      rw [ih hn.2 hmt]
      simp [hb]

theorem kept_row_injective (ts rpf : Nat) : Function.Injective (kept_row ts rpf) := by
  intro a b hab
  unfold kept_row at hab
  split_ifs at hab <;> omega

/-- The training view of the fold `f`: the rows outside the test block, in their order. -/
theorem training_view_eq {α : Type} (data : Nat → α) (rows cols k f : Nat) (hf : f < k)
    (hrows : rows ≤ SIZE_MAX) :
    training_view (cross_validate_fold data { rows := rows, cols := cols } k f)
      = (List.range (rows - rows / k)).map
          (fun j => some (data (kept_row (f * (rows / k)) (rows / k) j))) := by
  obtain ⟨h1, _, _, h4⟩ := cross_validate_fold_eq data rows cols k f hf hrows
  unfold training_view
  rw [h1]
  apply List.map_congr_left
  intro j hj
  rw [List.mem_range] at hj
  rw [h4 j, if_pos hj]

theorem training_view_count (rows cols k f i : Nat) (hf : f < k) (hrows : rows ≤ SIZE_MAX)
    (hi : i < rows) :
    (training_view (cross_validate_fold (fun r => r) { rows := rows, cols := cols } k f)).count
        (some i)
      = if f * (rows / k) ≤ i ∧ i < f * (rows / k) + rows / k then 0 else 1 := by
  have hle := fold_block_le rows k f hf
  rw [training_view_eq (fun r => r) rows cols k f hf hrows]
  generalize rows / k = rpf at hle ⊢
  generalize f * rpf = ts at hle ⊢
  have hinj : Function.Injective (fun j => some (kept_row ts rpf j)) := by
    intro a b hab
    exact kept_row_injective _ _ (Option.some.inj hab)
  have hnodup := List.Nodup.map hinj (List.nodup_range (rows - rpf))
  by_cases hblock : ts ≤ i ∧ i < ts + rpf
  · rw [if_pos hblock]
    apply List.count_eq_zero_of_not_mem
    intro hmem
    rw [List.mem_map] at hmem
    obtain ⟨j, _, hj⟩ := hmem
    have hj2 : kept_row ts rpf j = i := Option.some.inj hj
    unfold kept_row at hj2
    split_ifs at hj2 <;> omega
  · rw [if_neg hblock]
    have hmem : some i ∈ (List.range (rows - rpf)).map (fun j => some (kept_row ts rpf j)) := by
      rw [List.mem_map]
      by_cases hlt : i < ts
      · refine ⟨i, ?_, ?_⟩
        · rw [List.mem_range]; omega
        · unfold kept_row
          rw [if_pos hlt]
      · refine ⟨i - rpf, ?_, ?_⟩
        · rw [List.mem_range]; omega
        · unfold kept_row
          rw [if_neg (by omega)]
          congr 1
          omega
    exact count_of_nodup_mem hnodup hmem

/-- C7. For `k_folds ≥ 1` and a fold `f < k_folds`, with `rowsPerFold = rows / k_folds`, the
training view that `cross_validate` builds for the fold holds row `i` of the table exactly when
`i` is outside the test block `[f * rowsPerFold, (f + 1) * rowsPerFold)`: a row of the block
does not occur, every other row occurs once, and nothing else occurs. Rows are told apart by
their index; for a table `data` the view holds the pointers `data[i]` of these rows. -/
theorem cross_validate_training_view (rows cols k f : Nat) (hk : 1 ≤ k) (hf : f < k)
    (hrows : rows ≤ SIZE_MAX) :
    (∀ i : Nat, i < rows →
      (some i ∈ training_view (cross_validate_fold (fun r => r) { rows := rows, cols := cols } k f)
        ↔ ¬ (f * (rows / k) ≤ i ∧ i < (f + 1) * (rows / k)))) ∧
    (∀ i : Nat, i < rows → (f * (rows / k) ≤ i ∧ i < (f + 1) * (rows / k)) →
      (training_view (cross_validate_fold (fun r => r) { rows := rows, cols := cols } k f)).count
        (some i) = 0) ∧
    (∀ i : Nat, i < rows → ¬ (f * (rows / k) ≤ i ∧ i < (f + 1) * (rows / k)) →
      (training_view (cross_validate_fold (fun r => r) { rows := rows, cols := cols } k f)).count
        (some i) = 1) ∧
    (∀ c ∈ training_view (cross_validate_fold (fun r => r) { rows := rows, cols := cols } k f),
      ∃ i : Nat, i < rows ∧ c = some i) ∧
    (∀ (α : Type) (data : Nat → α),
      training_view (cross_validate_fold data { rows := rows, cols := cols } k f)
        = (training_view (cross_validate_fold (fun r => r) { rows := rows, cols := cols } k f)).map
            (Option.map data)) := by
  have hk0 : 0 < k := hk
  have hexp : (f + 1) * (rows / k) = f * (rows / k) + rows / k := by ring
  have hle := fold_block_le rows k f hf
  rw [hexp]
  refine ⟨?_, ?_, ?_, ?_, ?_⟩
  · intro i hi
    have hc := training_view_count rows cols k f i hf hrows hi
    by_cases hblock : f * (rows / k) ≤ i ∧ i < f * (rows / k) + rows / k
    · rw [if_pos hblock] at hc
      simp only [hblock, and_self, not_true_eq_false, iff_false]
      exact List.count_eq_zero.1 hc
    · rw [if_neg hblock] at hc
      simp only [hblock, not_false_eq_true, iff_true]
      exact List.count_pos_iff.1 (by omega)
  · intro i hi hblock
    rw [training_view_count rows cols k f i hf hrows hi, if_pos hblock]
  · intro i hi hblock
    rw [training_view_count rows cols k f i hf hrows hi, if_neg hblock]
  · intro c hc
    rw [training_view_eq (fun r => r) rows cols k f hf hrows, List.mem_map] at hc
    obtain ⟨j, hj, rfl⟩ := hc
    rw [List.mem_range] at hj
    refine ⟨kept_row (f * (rows / k)) (rows / k) j, ?_, rfl⟩
    generalize rows / k = rpf at hle hj ⊢
    generalize f * rpf = ts at hle ⊢
    unfold kept_row
    split_ifs <;> omega
  · intro α data
    rw [training_view_eq data rows cols k f hf hrows,
      training_view_eq (fun r => r) rows cols k f hf hrows, List.map_map]
    rfl

/-- C7, for the fold 1 of 3 folds of a table of 10 rows. -/
theorem cross_validate_training_view_witness :
    (∀ i : Nat, i < 10 →
      (some i ∈ training_view (cross_validate_fold (fun r => r) { rows := 10, cols := 3 } 3 1)
        ↔ ¬ (1 * (10 / 3) ≤ i ∧ i < (1 + 1) * (10 / 3)))) ∧
    (∀ i : Nat, i < 10 → (1 * (10 / 3) ≤ i ∧ i < (1 + 1) * (10 / 3)) →
      (training_view (cross_validate_fold (fun r => r) { rows := 10, cols := 3 } 3 1)).count
        (some i) = 0) ∧
    (∀ i : Nat, i < 10 → ¬ (1 * (10 / 3) ≤ i ∧ i < (1 + 1) * (10 / 3)) →
      (training_view (cross_validate_fold (fun r => r) { rows := 10, cols := 3 } 3 1)).count
        (some i) = 1) ∧
    (∀ c ∈ training_view (cross_validate_fold (fun r => r) { rows := 10, cols := 3 } 3 1),
      ∃ i : Nat, i < 10 ∧ c = some i) ∧
    (∀ (α : Type) (data : Nat → α),
      training_view (cross_validate_fold data { rows := 10, cols := 3 } 3 1)
        = (training_view (cross_validate_fold (fun r => r) { rows := 10, cols := 3 } 3 1)).map
            (Option.map data)) :=
  cross_validate_training_view 10 3 3 1 (by decide) (by decide) (by decide)

/-- C18. For `k_folds ≥ 1` and a fold `f < k_folds`, the fill loop of `cross_validate` writes
`train_rows = rows - rowsPerFold` cells of the buffer `train_data` of `train_rows` cells:
`train_idx` is below `train_rows` before every write and equals `train_rows` after the loop, no
cell from `train_rows` on is written, and the rows keep their order: cell `j` holds `data[j]`
for `j < f * rowsPerFold` and `data[j + rowsPerFold]` from there on. -/
theorem cross_validate_fill_loop {α : Type} (data : Nat → α) (rows cols k f : Nat) (hk : 1 ≤ k)
    (hf : f < k) (hrows : rows ≤ SIZE_MAX) :
    (cross_validate_fold data { rows := rows, cols := cols } k f).train_dim.rows
      = rows - rows / k ∧
    (cross_validate_fold data { rows := rows, cols := cols } k f).train_idx
      = (cross_validate_fold data { rows := rows, cols := cols } k f).train_dim.rows ∧
    (∀ i : Nat, i < rows →
      (i < size_mul f (rows / k) ∨ i ≥ size_add (size_mul f (rows / k)) (rows / k)) →
      (fill_train_data data (size_mul f (rows / k)) (size_add (size_mul f (rows / k)) (rows / k))
        (List.range i) { train_data := fun _ => none, train_idx := 0 }).train_idx
        < (cross_validate_fold data { rows := rows, cols := cols } k f).train_dim.rows) ∧
    (∀ j : Nat, j < (cross_validate_fold data { rows := rows, cols := cols } k f).train_dim.rows →
      (cross_validate_fold data { rows := rows, cols := cols } k f).train_data j
        = some (data (if j < f * (rows / k) then j else j + rows / k))) ∧
    (∀ j : Nat, (cross_validate_fold data { rows := rows, cols := cols } k f).train_dim.rows ≤ j →
      (cross_validate_fold data { rows := rows, cols := cols } k f).train_data j = none) := by
  have hk0 : 0 < k := hk
  obtain ⟨h1, _, h3, h4⟩ := cross_validate_fold_eq data rows cols k f hf hrows
  have hle := fold_block_le rows k f hf
  rw [h1, h3]
  simp only []
  refine ⟨trivial, trivial, ?_, ?_, ?_⟩
  · intro i hi hout
    generalize rows / k = rpf at hle hout ⊢
    obtain ⟨a1, a2, _, _⟩ := fold_arith rows rpf f hle hrows
    rw [a1, a2] at hout ⊢
    rw [(fill_train_data_range data (f * rpf) rpf i (by omega)).1]
    generalize f * rpf = ts at hle hout ⊢
    unfold kept_count
    split_ifs <;> omega
  · intro j hj
    rw [h4 j, if_pos hj]
    rfl
  · intro j hj
    rw [h4 j, if_neg (by omega)]

/-- C18, for the fold 1 of 3 folds of a table of 10 rows. -/
theorem cross_validate_fill_loop_witness :
    (cross_validate_fold (fun r => r) { rows := 10, cols := 3 } 3 1).train_dim.rows
      = 10 - 10 / 3 ∧
    (cross_validate_fold (fun r => r) { rows := 10, cols := 3 } 3 1).train_idx
      = (cross_validate_fold (fun r => r) { rows := 10, cols := 3 } 3 1).train_dim.rows ∧
    (∀ i : Nat, i < 10 →
      (i < size_mul 1 (10 / 3) ∨ i ≥ size_add (size_mul 1 (10 / 3)) (10 / 3)) →
      (fill_train_data (fun r => r) (size_mul 1 (10 / 3)) (size_add (size_mul 1 (10 / 3)) (10 / 3))
        (List.range i) { train_data := fun _ => none, train_idx := 0 }).train_idx
        < (cross_validate_fold (fun r => r) { rows := 10, cols := 3 } 3 1).train_dim.rows) ∧
    (∀ j : Nat, j < (cross_validate_fold (fun r => r) { rows := 10, cols := 3 } 3 1).train_dim.rows →
      (cross_validate_fold (fun r => r) { rows := 10, cols := 3 } 3 1).train_data j
        = some ((fun r => r) (if j < 1 * (10 / 3) then j else j + 10 / 3))) ∧
    (∀ j : Nat, (cross_validate_fold (fun r => r) { rows := 10, cols := 3 } 3 1).train_dim.rows ≤ j →
      (cross_validate_fold (fun r => r) { rows := 10, cols := 3 } 3 1).train_data j = none) :=
  cross_validate_fill_loop (fun r => r) 10 3 3 1 (by decide) (by decide) (by decide)

/-! ## Cross-validation: the test blocks -/

/-- The rows that `eval_model` visits for the fold `f`: the block of `rows / k` rows from
`f * (rows / k)` on. -/
theorem eval_model_rows_eq (rows k f : Nat) (hf : f < k) (hrows : rows ≤ SIZE_MAX) :
    eval_model_rows { testingFoldIdx := f, rowsPerFold := rows / k }
      = List.range' (f * (rows / k)) (rows / k) := by
  have hle := fold_block_le rows k f hf
  unfold eval_model_rows
  simp only []
  generalize rows / k = rpf at hle ⊢
  obtain ⟨a1, a2, _, _⟩ := fold_arith rows rpf f hle hrows
  rw [a1, a2]
  congr 1
  omega

theorem mem_eval_model_rows (rows cols k f i : Nat) (hf : f < k) (hrows : rows ≤ SIZE_MAX) :
    i ∈ eval_model_rows (cross_validate_fold (fun r => r) { rows := rows, cols := cols } k f).ctx
      ↔ f * (rows / k) ≤ i ∧ i < f * (rows / k) + rows / k := by
  rw [(cross_validate_fold_eq (fun r => r) rows cols k f hf hrows).2.1,
    eval_model_rows_eq rows k f hf hrows, List.mem_range'_1]

/-- C9. For `k_folds ≥ 1`, every row that `eval_model` visits in a fold has an index below
`k_folds * (rows / k_folds)`, which is at most `rows`; a remainder row, of index from
`k_folds * (rows / k_folds)` on, is visited in no fold and is in the training view of every
fold, once. -/
theorem eval_model_rows_in_range (rows cols k : Nat) (hk : 1 ≤ k) (hrows : rows ≤ SIZE_MAX) :
    k * (rows / k) ≤ rows ∧
    (∀ f : Nat, f < k → ∀ row_id ∈ eval_model_rows
        (cross_validate_fold (fun r => r) { rows := rows, cols := cols } k f).ctx,
      row_id < k * (rows / k)) ∧
    (∀ i : Nat, k * (rows / k) ≤ i → i < rows → ∀ f : Nat, f < k →
      i ∉ eval_model_rows (cross_validate_fold (fun r => r) { rows := rows, cols := cols } k f).ctx ∧
      (training_view (cross_validate_fold (fun r => r) { rows := rows, cols := cols } k f)).count
        (some i) = 1) := by
  have hk0 : 0 < k := hk
  have hkr : k * (rows / k) ≤ rows := Nat.mul_div_le rows k
  have hblock : ∀ f : Nat, f < k → f * (rows / k) + rows / k ≤ k * (rows / k) := by
    intro f hf
    have h1 : (f + 1) * (rows / k) ≤ k * (rows / k) := Nat.mul_le_mul_right _ (by omega)
    have h3 : (f + 1) * (rows / k) = f * (rows / k) + rows / k := by ring
    omega
  refine ⟨hkr, ?_, ?_⟩
  · intro f hf row_id hrow
    rw [mem_eval_model_rows rows cols k f row_id hf hrows] at hrow
    have := hblock f hf
    omega
  · intro i hi hirows f hf
    have hb := hblock f hf
    constructor
    · rw [mem_eval_model_rows rows cols k f i hf hrows]
      omega
    · rw [training_view_count rows cols k f i hf hrows hirows, if_neg (by omega)]

/-- C9, for a table of 10 rows and 3 folds: the row 9 is a remainder row. -/
theorem eval_model_rows_in_range_witness :
    3 * (10 / 3) ≤ 10 ∧
    (∀ f : Nat, f < 3 → ∀ row_id ∈ eval_model_rows
        (cross_validate_fold (fun r => r) { rows := 10, cols := 3 } 3 f).ctx,
      row_id < 3 * (10 / 3)) ∧
    (∀ i : Nat, 3 * (10 / 3) ≤ i → i < 10 → ∀ f : Nat, f < 3 →
      i ∉ eval_model_rows (cross_validate_fold (fun r => r) { rows := 10, cols := 3 } 3 f).ctx ∧
      (training_view (cross_validate_fold (fun r => r) { rows := 10, cols := 3 } 3 f)).count
        (some i) = 1) :=
  eval_model_rows_in_range 10 3 3 (by decide) (by decide)

theorem block_order (rpf f g : Nat) (h : f < g) : f * rpf + rpf ≤ g * rpf := by
  have h1 : (f + 1) * rpf ≤ g * rpf := Nat.mul_le_mul_right _ (by omega)
  have h3 : (f + 1) * rpf = f * rpf + rpf := by ring
  omega

/-! ## Cross-validation: the accuracy -/

theorem eval_model_loop_ret (predict : Nat → Run Int) (ground_truth p : Nat → Int)
    (l : List Nat) (n : Int) (hp : ∀ r ∈ l, predict r = Run.ret (p r)) :
    eval_model_loop predict ground_truth l n
      = Run.ret (n + ((l.countP (fun r => decide (p r = ground_truth r)) : Nat) : Int)) := by
  induction l generalizing n with
  | nil => simp [eval_model_loop]
  | cons r rest ih =>
    have hrest : ∀ x ∈ rest, predict x = Run.ret (p x) :=
      fun x hx => hp x (List.mem_cons_of_mem _ hx)
    simp only [eval_model_loop, hp r (List.mem_cons_self _ _), List.countP_cons]
    by_cases h : p r = ground_truth r
    · simp only [h, if_true, decide_True]
      rw [ih _ hrest]
      congr 1
      push_cast
      ring
    · simp only [h, if_false, decide_False]
      rw [ih _ hrest]
      simp

theorem eval_model_loop_exit (predict : Nat → Run Int) (ground_truth : Nat → Int)
    (l : List Nat) (n : Int) :
    (∃ code, eval_model_loop predict ground_truth l n = Run.exit code)
      ↔ ∃ r ∈ l, ∃ code, predict r = Run.exit code := by
  induction l generalizing n with
  | nil => simp [eval_model_loop]
  | cons r rest ih =>
    cases hr : predict r with
    | exit code =>
      simp only [eval_model_loop, hr]
      constructor
      · intro _
        exact ⟨r, List.mem_cons_self _ _, code, hr⟩
      · intro _
        exact ⟨code, rfl⟩
    | ret prediction =>
      have hstep : (∃ code, eval_model_loop predict ground_truth (r :: rest) n = Run.exit code)
          ↔ ∃ x ∈ rest, ∃ code, predict x = Run.exit code := by
        simp only [eval_model_loop, hr]
        split_ifs
        · exact ih _
        · exact ih _
      rw [hstep]
      constructor
      · rintro ⟨x, hx, hcode⟩
        exact ⟨x, List.mem_cons_of_mem _ hx, hcode⟩
      · rintro ⟨x, hx, code, hcode⟩
        rcases List.mem_cons.1 hx with h | h
        · subst h
          rw [hr] at hcode
          cases hcode
        · exact ⟨x, h, code, hcode⟩

theorem cross_validate_loop_ret {F : Type}
    (train_model : (Nat → Option (Nat → ℚ)) → RandomForestParameters → dim → ModelContext → F)
    (predict_model : F → Nat → (Nat → ℚ) → Run Int) (data : Nat → Nat → ℚ)
    (params : RandomForestParameters) (csv_dim : dim) (k : Nat) (acc : Nat → Option ℚ)
    (l : List Nat) (sum : Option ℚ)
    (hacc : ∀ f ∈ l, eval_model predict_model (fold_forest train_model data params csv_dim k f)
      data params csv_dim (cross_validate_fold data csv_dim k f).ctx = Run.ret (acc f)) :
    cross_validate_loop train_model predict_model data params csv_dim k l sum
      = Run.ret ((l.map acc).foldl double_add sum) := by
  induction l generalizing sum with
  | nil => rfl
  | cons f rest ih =>
    have hrest : ∀ g ∈ rest, eval_model predict_model
        (fold_forest train_model data params csv_dim k g) data params csv_dim
        (cross_validate_fold data csv_dim k g).ctx = Run.ret (acc g) :=
      fun g hg => hacc g (List.mem_cons_of_mem _ hg)
    have hf := hacc f (List.mem_cons_self _ _)
    unfold fold_forest at hf
    simp only [cross_validate_loop, hf, List.map_cons, List.foldl_cons]
    exact ih _ hrest

theorem foldl_double_add_some (q : Nat → ℚ) (l : List Nat) (x : ℚ) :
    (l.map (fun f => some (q f))).foldl double_add (some x) = some (x + (l.map q).sum) := by
  induction l generalizing x with
  | nil => simp
  | cons f rest ih =>
    simp only [List.map_cons, List.foldl_cons, double_add, List.sum_cons]
    rw [ih]
    congr 1
    ring

theorem eval_model_of_predictions {F : Type} (predict_model : F → Nat → (Nat → ℚ) → Run Int)
    (random_forest : F) (data : Nat → Nat → ℚ) (params : RandomForestParameters)
    (rows cols k f : Nat) (p : Nat → Nat → Int) (hf : f < k) (hrows : rows ≤ SIZE_MAX)
    (hpred : ∀ row_id : Nat, f * (rows / k) ≤ row_id → row_id < f * (rows / k) + rows / k →
      predict_model random_forest params.n_estimators (data row_id) = Run.ret (p f row_id)) :
    eval_model predict_model random_forest data params { rows := rows, cols := cols }
        (cross_validate_fold data { rows := rows, cols := cols } k f).ctx
      = Run.ret (double_div (some ((fold_num_correct data rows cols k p f : Nat) : ℚ))
          (some ((rows / k : Nat) : ℚ))) := by
  rw [(cross_validate_fold_eq data rows cols k f hf hrows).2.1]
  unfold eval_model
  rw [eval_model_rows_eq rows k f hf hrows]
  rw [eval_model_loop_ret _ _ (p f) _ 0 (by
    intro r hr
    rw [List.mem_range'_1] at hr
    exact hpred r hr.1 hr.2)]
  simp only [zero_add, Int.cast_natCast]
  rfl

/-- C10. When the predictor returns on the rows of the test blocks, `eval_model` visits for the
fold `f` the `rowsPerFold` rows of the block `f` and returns `num_correct / rowsPerFold`, where
`num_correct` counts the rows of the block whose predicted label equals the integer value of
the last column; `cross_validate` returns the sum of the `k_folds` fold accuracies divided by
`k_folds`. The quotients are taken over the rationals (`double_div`, `0 / 0` being NaN); for
`rowsPerFold > 0` the result is the rational number written out last. -/
theorem cross_validate_mean_accuracy {F : Type}
    (train_model : (Nat → Option (Nat → ℚ)) → RandomForestParameters → dim → ModelContext → F)
    (predict_model : F → Nat → (Nat → ℚ) → Run Int) (data : Nat → Nat → ℚ)
    (params : RandomForestParameters) (rows cols k : Nat) (p : Nat → Nat → Int) (hk : 1 ≤ k)
    (hrows : rows ≤ SIZE_MAX)
    (hpred : ∀ f : Nat, f < k → ∀ row_id : Nat,
      f * (rows / k) ≤ row_id → row_id < f * (rows / k) + rows / k →
      predict_model (fold_forest train_model data params { rows := rows, cols := cols } k f)
        params.n_estimators (data row_id) = Run.ret (p f row_id)) :
    (∀ f : Nat, f < k →
      eval_model_rows (cross_validate_fold data { rows := rows, cols := cols } k f).ctx
        = List.range' (f * (rows / k)) (rows / k)) ∧
    (∀ f : Nat, f < k →
      eval_model predict_model
          (fold_forest train_model data params { rows := rows, cols := cols } k f) data params
          { rows := rows, cols := cols }
          (cross_validate_fold data { rows := rows, cols := cols } k f).ctx
        = Run.ret (double_div (some ((fold_num_correct data rows cols k p f : Nat) : ℚ))
            (some ((rows / k : Nat) : ℚ)))) ∧
    cross_validate train_model predict_model data params { rows := rows, cols := cols } k
      = Run.ret (double_div
          (double_sum ((List.range k).map (fun f =>
            double_div (some ((fold_num_correct data rows cols k p f : Nat) : ℚ))
              (some ((rows / k : Nat) : ℚ)))))
          (some (k : ℚ))) ∧
    (0 < rows / k →
      cross_validate train_model predict_model data params { rows := rows, cols := cols } k
        = Run.ret (some (((List.range k).map (fun f =>
            ((fold_num_correct data rows cols k p f : Nat) : ℚ) / ((rows / k : Nat) : ℚ))).sum
            / (k : ℚ)))) := by
  have heval : ∀ f : Nat, f < k →
      eval_model predict_model
          (fold_forest train_model data params { rows := rows, cols := cols } k f) data params
          { rows := rows, cols := cols }
          (cross_validate_fold data { rows := rows, cols := cols } k f).ctx
        = Run.ret (double_div (some ((fold_num_correct data rows cols k p f : Nat) : ℚ))
            (some ((rows / k : Nat) : ℚ))) := by
    intro f hf
    exact eval_model_of_predictions predict_model _ data params rows cols k f p hf hrows
      (hpred f hf)
  have hcv : cross_validate train_model predict_model data params
      { rows := rows, cols := cols } k
      = Run.ret (double_div
          (double_sum ((List.range k).map (fun f =>
            double_div (some ((fold_num_correct data rows cols k p f : Nat) : ℚ))
              (some ((rows / k : Nat) : ℚ)))))
          (some (k : ℚ))) := by
    unfold cross_validate
    rw [cross_validate_loop_ret train_model predict_model data params _ k
      (fun f => double_div (some ((fold_num_correct data rows cols k p f : Nat) : ℚ))
        (some ((rows / k : Nat) : ℚ))) (List.range k) (some 0)
      (fun f hf => heval f (List.mem_range.1 hf))]
    rfl
  refine ⟨?_, heval, hcv, ?_⟩
  · intro f hf
    rw [(cross_validate_fold_eq data rows cols k f hf hrows).2.1,
      eval_model_rows_eq rows k f hf hrows]
  · intro hpos
    rw [hcv]
    have hq : ((rows / k : Nat) : ℚ) ≠ 0 := by
      have : rows / k ≠ 0 := by omega
      exact_mod_cast this
    have hk0 : (k : ℚ) ≠ 0 := by
      have : k ≠ 0 := by omega
      exact_mod_cast this
    have hfun : (fun f => double_div (some ((fold_num_correct data rows cols k p f : Nat) : ℚ))
        (some ((rows / k : Nat) : ℚ)))
        = fun f => some (((fold_num_correct data rows cols k p f : Nat) : ℚ)
            / ((rows / k : Nat) : ℚ)) := by
      funext f
      simp only [double_div, hq, if_false]
    rw [hfun]
    unfold double_sum
    rw [foldl_double_add_some, zero_add]
    simp only [double_div, hk0, if_false]

/-- C10, for a table of 10 rows whose label is the parity of the row index, 3 folds and a
predictor that always answers 1. -/
theorem cross_validate_mean_accuracy_witness :
    cross_validate (fun _ _ _ _ => ()) (fun (_ : Unit) _ _ => Run.ret 1)
        (fun r c => if c = 2 then ((r % 2 : Nat) : ℚ) else 0)
        { n_estimators := 20, max_depth := 7, min_samples_leaf := 3, max_features := 20 }
        { rows := 10, cols := 3 } 3
      = Run.ret (some (((List.range 3).map (fun f =>
          ((fold_num_correct (fun r c => if c = 2 then ((r % 2 : Nat) : ℚ) else 0) 10 3 3
            (fun _ _ => 1) f : Nat) : ℚ) / ((10 / 3 : Nat) : ℚ))).sum / ((3 : Nat) : ℚ))) :=
  (cross_validate_mean_accuracy (fun _ _ _ _ => ()) (fun (_ : Unit) _ _ => Run.ret 1)
    (fun r c => if c = 2 then ((r % 2 : Nat) : ℚ) else 0)
    { n_estimators := 20, max_depth := 7, min_samples_leaf := 3, max_features := 20 }
    10 3 3 (fun _ _ => 1) (by decide) (by decide) (fun _ _ _ _ _ => rfl)).2.2.2 (by decide)

theorem sum_map_bounds (q : Nat → ℚ) (l : List Nat) (hq : ∀ f ∈ l, 0 ≤ q f ∧ q f ≤ 1) :
    0 ≤ (l.map q).sum ∧ (l.map q).sum ≤ (l.length : ℚ) := by
  induction l with
  | nil => simp
  | cons f rest ih =>
    have hrest := ih (fun g hg => hq g (List.mem_cons_of_mem _ hg))
    have hf := hq f (List.mem_cons_self _ _)
    simp only [List.map_cons, List.sum_cons, List.length_cons, Nat.cast_add, Nat.cast_one]
    constructor
    · linarith [hrest.1, hf.1]
    · linarith [hrest.2, hf.2]

theorem fold_num_correct_le (data : Nat → Nat → ℚ) (rows cols k : Nat) (p : Nat → Nat → Int)
    (f : Nat) : fold_num_correct data rows cols k p f ≤ rows / k := by
  unfold fold_num_correct
  have h := List.countP_le_length
    (fun row_id => decide (p f row_id = double_to_int (data row_id (size_sub cols 1))))
    (l := List.range' (f * (rows / k)) (rows / k))
  rw [List.length_range'] at h
  exact h

/-- When there are at least as many rows as folds, so that `rowsPerFold ≥ 1`, and the predictor
returns on the rows of the test blocks, every fold accuracy and the mean accuracy that
`cross_validate` returns are rational numbers between 0 and 1. -/
theorem cross_validate_accuracy_bounds {F : Type}
    (train_model : (Nat → Option (Nat → ℚ)) → RandomForestParameters → dim → ModelContext → F)
    (predict_model : F → Nat → (Nat → ℚ) → Run Int) (data : Nat → Nat → ℚ)
    (params : RandomForestParameters) (rows cols k : Nat) (p : Nat → Nat → Int) (hk : 1 ≤ k)
    (hkrows : k ≤ rows) (hrows : rows ≤ SIZE_MAX)
    (hpred : ∀ f : Nat, f < k → ∀ row_id : Nat,
      f * (rows / k) ≤ row_id → row_id < f * (rows / k) + rows / k →
      predict_model (fold_forest train_model data params { rows := rows, cols := cols } k f)
        params.n_estimators (data row_id) = Run.ret (p f row_id)) :
    (∀ f : Nat, f < k → ∃ accuracy : ℚ,
      eval_model predict_model
          (fold_forest train_model data params { rows := rows, cols := cols } k f) data params
          { rows := rows, cols := cols }
          (cross_validate_fold data { rows := rows, cols := cols } k f).ctx
        = Run.ret (some accuracy) ∧ 0 ≤ accuracy ∧ accuracy ≤ 1) ∧
    ∃ mean : ℚ,
      cross_validate train_model predict_model data params { rows := rows, cols := cols } k
        = Run.ret (some mean) ∧ 0 ≤ mean ∧ mean ≤ 1 := by
  have hpos : 0 < rows / k := Nat.div_pos hkrows (by omega)
  have hq : ((rows / k : Nat) : ℚ) ≠ 0 := by
    have : rows / k ≠ 0 := by omega
    exact_mod_cast this
  have hqpos : (0 : ℚ) < ((rows / k : Nat) : ℚ) := by exact_mod_cast hpos
  have hk0 : (k : ℚ) ≠ 0 := by
    have : k ≠ 0 := by omega
    exact_mod_cast this
  have hkpos : (0 : ℚ) < (k : ℚ) := by
    have : 0 < k := by omega
    exact_mod_cast this
  have hbound : ∀ f : Nat,
      0 ≤ ((fold_num_correct data rows cols k p f : Nat) : ℚ) / ((rows / k : Nat) : ℚ) ∧
      ((fold_num_correct data rows cols k p f : Nat) : ℚ) / ((rows / k : Nat) : ℚ) ≤ 1 := by
    intro f
    have hle : ((fold_num_correct data rows cols k p f : Nat) : ℚ) ≤ ((rows / k : Nat) : ℚ) := by
      exact_mod_cast fold_num_correct_le data rows cols k p f
    constructor
    · exact div_nonneg (Nat.cast_nonneg _) (le_of_lt hqpos)
    · exact (div_le_one hqpos).2 hle
  have heval : ∀ f : Nat, f < k →
      eval_model predict_model
          (fold_forest train_model data params { rows := rows, cols := cols } k f) data params
          { rows := rows, cols := cols }
          (cross_validate_fold data { rows := rows, cols := cols } k f).ctx
        = Run.ret (some (((fold_num_correct data rows cols k p f : Nat) : ℚ)
            / ((rows / k : Nat) : ℚ))) := by
    intro f hf
    rw [eval_model_of_predictions predict_model _ data params rows cols k f p hf hrows
      (hpred f hf)]
    simp only [double_div, hq, if_false]
  constructor
  · intro f hf
    exact ⟨_, heval f hf, (hbound f).1, (hbound f).2⟩
  · refine ⟨((List.range k).map (fun f =>
        ((fold_num_correct data rows cols k p f : Nat) : ℚ) / ((rows / k : Nat) : ℚ))).sum
        / (k : ℚ), ?_, ?_, ?_⟩
    · unfold cross_validate
      rw [cross_validate_loop_ret train_model predict_model data params _ k
        (fun f => some (((fold_num_correct data rows cols k p f : Nat) : ℚ)
          / ((rows / k : Nat) : ℚ))) (List.range k) (some 0)
        (fun f hf => heval f (List.mem_range.1 hf))]
      simp only []
      rw [foldl_double_add_some, zero_add]
      simp only [double_div, hk0, if_false]
    · exact div_nonneg (sum_map_bounds _ _ (fun f _ => hbound f)).1 (le_of_lt hkpos)
    · have h := (sum_map_bounds _ (List.range k) (fun f _ => hbound f)).2
      rw [List.length_range] at h
      exact (div_le_one hkpos).2 h

/-- When `rowsPerFold ≥ 1` and the predictor returns on the rows of the test blocks, the fold
accuracies and the mean accuracy that `cross_validate` returns, written out. -/
theorem cross_validate_of_predictions {F : Type}
    (train_model : (Nat → Option (Nat → ℚ)) → RandomForestParameters → dim → ModelContext → F)
    (predict_model : F → Nat → (Nat → ℚ) → Run Int) (data : Nat → Nat → ℚ)
    (params : RandomForestParameters) (rows cols k : Nat) (p : Nat → Nat → Int) (hk : 1 ≤ k)
    (hpos : 0 < rows / k) (hrows : rows ≤ SIZE_MAX)
    (hpred : ∀ f : Nat, f < k → ∀ row_id : Nat,
      f * (rows / k) ≤ row_id → row_id < f * (rows / k) + rows / k →
      predict_model (fold_forest train_model data params { rows := rows, cols := cols } k f)
        params.n_estimators (data row_id) = Run.ret (p f row_id)) :
    (∀ f : Nat, f < k →
      eval_model predict_model
          (fold_forest train_model data params { rows := rows, cols := cols } k f) data params
          { rows := rows, cols := cols }
          (cross_validate_fold data { rows := rows, cols := cols } k f).ctx
        = Run.ret (some (((fold_num_correct data rows cols k p f : Nat) : ℚ)
            / ((rows / k : Nat) : ℚ)))) ∧
    cross_validate train_model predict_model data params { rows := rows, cols := cols } k
      = Run.ret (some (((List.range k).map (fun f =>
          ((fold_num_correct data rows cols k p f : Nat) : ℚ) / ((rows / k : Nat) : ℚ))).sum
          / (k : ℚ))) ∧
    0 ≤ ((List.range k).map (fun f =>
          ((fold_num_correct data rows cols k p f : Nat) : ℚ) / ((rows / k : Nat) : ℚ))).sum
          / (k : ℚ) ∧
    ((List.range k).map (fun f =>
          ((fold_num_correct data rows cols k p f : Nat) : ℚ) / ((rows / k : Nat) : ℚ))).sum
          / (k : ℚ) ≤ 1 := by
  have hq : ((rows / k : Nat) : ℚ) ≠ 0 := by
    have : rows / k ≠ 0 := by omega
    exact_mod_cast this
  have hqpos : (0 : ℚ) < ((rows / k : Nat) : ℚ) := by exact_mod_cast hpos
  have hk0 : (k : ℚ) ≠ 0 := by
    have : k ≠ 0 := by omega
    exact_mod_cast this
  have hkpos : (0 : ℚ) < (k : ℚ) := by
    have : 0 < k := by omega
    exact_mod_cast this
  have hbound : ∀ f : Nat,
      0 ≤ ((fold_num_correct data rows cols k p f : Nat) : ℚ) / ((rows / k : Nat) : ℚ) ∧
      ((fold_num_correct data rows cols k p f : Nat) : ℚ) / ((rows / k : Nat) : ℚ) ≤ 1 := by
    intro f
    have hle : ((fold_num_correct data rows cols k p f : Nat) : ℚ) ≤ ((rows / k : Nat) : ℚ) := by
      exact_mod_cast fold_num_correct_le data rows cols k p f
    constructor
    · exact div_nonneg (Nat.cast_nonneg _) (le_of_lt hqpos)
    · exact (div_le_one hqpos).2 hle
  have heval : ∀ f : Nat, f < k →
      eval_model predict_model
          (fold_forest train_model data params { rows := rows, cols := cols } k f) data params
          { rows := rows, cols := cols }
          (cross_validate_fold data { rows := rows, cols := cols } k f).ctx
        = Run.ret (some (((fold_num_correct data rows cols k p f : Nat) : ℚ)
            / ((rows / k : Nat) : ℚ))) := by
    intro f hf
    rw [eval_model_of_predictions predict_model _ data params rows cols k f p hf hrows
      (hpred f hf)]
    simp only [double_div, hq, if_false]
  refine ⟨heval, ?_, ?_, ?_⟩
  · unfold cross_validate
    rw [cross_validate_loop_ret train_model predict_model data params _ k
      (fun f => some (((fold_num_correct data rows cols k p f : Nat) : ℚ)
        / ((rows / k : Nat) : ℚ))) (List.range k) (some 0)
      (fun f hf => heval f (List.mem_range.1 hf))]
    simp only []
    rw [foldl_double_add_some, zero_add]
    simp only [double_div, hk0, if_false]
  · exact div_nonneg (sum_map_bounds _ _ (fun f _ => hbound f)).1 (le_of_lt hkpos)
  · have h := (sum_map_bounds _ (List.range k) (fun f _ => hbound f)).2
    rw [List.length_range] at h
    exact (div_le_one hkpos).2 h

/-- C8. When `k_folds ≥ 1` divides `rows`, the test blocks of the folds `0 .. k_folds - 1`,
which `eval_model` visits and `cross_validate` leaves out of the training view, have
`rows / k_folds` rows each, are pairwise disjoint, and every row of the table lies in exactly one
of them. `cross_validate` trains one forest for each fold, on the view of the fold, gives it to
`eval_model` with the context of the fold, so that the accuracy of the fold counts the rows of
its own block, and returns the mean of the fold accuracies, a number between 0 and 1 (for a
predictor that returns on the rows of the test blocks). With 100 rows, 3 columns and 5 folds
these are 5 forests, each trained on 80 rows and tested on its own block of 20 rows, from 0,
20, 40, 60 and 80 on. -/
theorem test_blocks_partition (rows cols k : Nat) (hk : 1 ≤ k) (hdiv : k ∣ rows)
    (hrows : rows ≤ SIZE_MAX) :
    (∀ f : Nat, f < k →
      eval_model_rows (cross_validate_fold (fun r => r) { rows := rows, cols := cols } k f).ctx
        = List.range' (f * (rows / k)) (rows / k) ∧
      (eval_model_rows
        (cross_validate_fold (fun r => r) { rows := rows, cols := cols } k f).ctx).length
        = rows / k) ∧
    (∀ f g : Nat, f < k → g < k → f ≠ g → List.Disjoint
      (eval_model_rows (cross_validate_fold (fun r => r) { rows := rows, cols := cols } k f).ctx)
      (eval_model_rows (cross_validate_fold (fun r => r) { rows := rows, cols := cols } k g).ctx)) ∧
    (∀ i : Nat, i < rows → ∃! f : Nat, f < k ∧ i ∈ eval_model_rows
      (cross_validate_fold (fun r => r) { rows := rows, cols := cols } k f).ctx) ∧
    (∀ f : Nat, f < k → ∀ i : Nat, i < rows →
      (i ∈ eval_model_rows (cross_validate_fold (fun r => r) { rows := rows, cols := cols } k f).ctx
        ↔ some i ∉ training_view
            (cross_validate_fold (fun r => r) { rows := rows, cols := cols } k f))) ∧
    (List.range 5).map (fun f => eval_model_rows
        (cross_validate_fold (fun r => r) { rows := 100, cols := 3 } 5 f).ctx)
      = [List.range' 0 20, List.range' 20 20, List.range' 40 20, List.range' 60 20,
          List.range' 80 20] ∧
    (∀ (F : Type)
        (train_model : (Nat → Option (Nat → ℚ)) → RandomForestParameters → dim → ModelContext → F)
        (predict_model : F → Nat → (Nat → ℚ) → Run Int) (data : Nat → Nat → ℚ)
        (params : RandomForestParameters) (p : Nat → Nat → Int),
      0 < rows →
      (∀ f : Nat, f < k → ∀ row_id : Nat,
        f * (rows / k) ≤ row_id → row_id < f * (rows / k) + rows / k →
        predict_model (fold_forest train_model data params { rows := rows, cols := cols } k f)
          params.n_estimators (data row_id) = Run.ret (p f row_id)) →
      (∀ f : Nat, f < k →
        eval_model predict_model
            (fold_forest train_model data params { rows := rows, cols := cols } k f) data params
            { rows := rows, cols := cols }
            (cross_validate_fold data { rows := rows, cols := cols } k f).ctx
          = Run.ret (some (((fold_num_correct data rows cols k p f : Nat) : ℚ)
              / ((rows / k : Nat) : ℚ)))) ∧
      cross_validate train_model predict_model data params { rows := rows, cols := cols } k
        = Run.ret (some (((List.range k).map (fun f =>
            ((fold_num_correct data rows cols k p f : Nat) : ℚ) / ((rows / k : Nat) : ℚ))).sum
            / (k : ℚ))) ∧
      0 ≤ ((List.range k).map (fun f =>
            ((fold_num_correct data rows cols k p f : Nat) : ℚ) / ((rows / k : Nat) : ℚ))).sum
            / (k : ℚ) ∧
      ((List.range k).map (fun f =>
            ((fold_num_correct data rows cols k p f : Nat) : ℚ) / ((rows / k : Nat) : ℚ))).sum
            / (k : ℚ) ≤ 1) ∧
    (∀ (F : Type)
        (train_model : (Nat → Option (Nat → ℚ)) → RandomForestParameters → dim → ModelContext → F)
        (predict_model : F → Nat → (Nat → ℚ) → Run Int) (data : Nat → Nat → ℚ)
        (params : RandomForestParameters) (p : Nat → Nat → Int),
      (∀ f : Nat, f < 5 → ∀ row_id : Nat, 20 * f ≤ row_id → row_id < 20 * f + 20 →
        predict_model
          (train_model (cross_validate_fold data { rows := 100, cols := 3 } 5 f).train_data params
            { rows := 80, cols := 3 } { testingFoldIdx := f, rowsPerFold := 20 })
          params.n_estimators (data row_id) = Run.ret (p f row_id)) →
      cross_validate train_model predict_model data params { rows := 100, cols := 3 } 5
        = Run.ret (some ((
            (((List.range' 0 20).countP
              (fun row_id => decide (p 0 row_id = double_to_int (data row_id 2))) : Nat) : ℚ) / 20
            + (((List.range' 20 20).countP
              (fun row_id => decide (p 1 row_id = double_to_int (data row_id 2))) : Nat) : ℚ) / 20
            + (((List.range' 40 20).countP
              (fun row_id => decide (p 2 row_id = double_to_int (data row_id 2))) : Nat) : ℚ) / 20
            + (((List.range' 60 20).countP
              (fun row_id => decide (p 3 row_id = double_to_int (data row_id 2))) : Nat) : ℚ) / 20
            + (((List.range' 80 20).countP
              (fun row_id => decide (p 4 row_id = double_to_int (data row_id 2))) : Nat) : ℚ) / 20)
            / 5))) := by
  have hk0 : 0 < k := hk
  have hkr : k * (rows / k) = rows := Nat.mul_div_cancel' hdiv
  refine ⟨?_, ?_, ?_, ?_, ?_, ?_, ?_⟩
  · intro f hf
    have heq : eval_model_rows
        (cross_validate_fold (fun r => r) { rows := rows, cols := cols } k f).ctx
        = List.range' (f * (rows / k)) (rows / k) := by
      rw [(cross_validate_fold_eq (fun r => r) rows cols k f hf hrows).2.1,
        eval_model_rows_eq rows k f hf hrows]
    rw [heq]
    exact ⟨rfl, List.length_range' _ _ _⟩
  · intro f g hf hg hfg
    rw [List.disjoint_left]
    intro i hif hig
    rw [mem_eval_model_rows rows cols k f i hf hrows] at hif
    rw [mem_eval_model_rows rows cols k g i hg hrows] at hig
    rcases Nat.lt_or_gt_of_ne hfg with h | h
    · have := block_order (rows / k) f g h
      omega
    · have := block_order (rows / k) g f h
      omega
  · intro i hi
    generalize hq : rows / k = rpf at hkr
    have hrpf : 0 < rpf := by
      rcases Nat.eq_zero_or_pos rpf with h | h
      · rw [h, Nat.mul_zero] at hkr
        omega
      · exact h
    have hdm : rpf * (i / rpf) + i % rpf = i := Nat.div_add_mod i rpf
    have hmod : i % rpf < rpf := Nat.mod_lt _ hrpf
    have hcomm : rpf * (i / rpf) = i / rpf * rpf := Nat.mul_comm _ _
    have hfk : i / rpf < k := by
      by_contra hge
      have h1 : k * rpf ≤ i / rpf * rpf := Nat.mul_le_mul_right _ (by omega)
      omega
    refine ⟨i / rpf, ⟨hfk, ?_⟩, ?_⟩
    · rw [mem_eval_model_rows rows cols k (i / rpf) i hfk hrows, hq]
      omega
    · rintro g ⟨hg, hmem⟩
      rw [mem_eval_model_rows rows cols k g i hg hrows, hq] at hmem
      rcases Nat.lt_trichotomy g (i / rpf) with h | h | h
      · have := block_order rpf g (i / rpf) h
        omega
      · exact h
      · have := block_order rpf (i / rpf) g h
        omega
  · intro f hf i hi
    rw [mem_eval_model_rows rows cols k f i hf hrows]
    have hc := training_view_count rows cols k f i hf hrows hi
    by_cases hblock : f * (rows / k) ≤ i ∧ i < f * (rows / k) + rows / k
    · rw [if_pos hblock] at hc
      simp only [hblock, and_self, true_iff]
      exact List.count_eq_zero.1 hc
    · rw [if_neg hblock] at hc
      simp only [hblock, false_iff, not_not]
      exact List.count_pos_iff.1 (by omega)
  · decide
  · intro F train_model predict_model data params p hrowspos hpred
    have hpos : 0 < rows / k := by
      rcases Nat.eq_zero_or_pos (rows / k) with h | h
      · rw [h, Nat.mul_zero] at hkr
        omega
      · exact h
    exact cross_validate_of_predictions train_model predict_model data params rows cols k p hk
      hpos hrows hpred
  · intro F train_model predict_model data params p hpred
    have hfold : ∀ f : Nat, f < 5 →
        fold_forest train_model data params { rows := 100, cols := 3 } 5 f
          = train_model (cross_validate_fold data { rows := 100, cols := 3 } 5 f).train_data params
              { rows := 80, cols := 3 } { testingFoldIdx := f, rowsPerFold := 20 } := by
      intro f hf
      obtain ⟨h1, h2, _, _⟩ := cross_validate_fold_eq data 100 3 5 f hf (by decide)
      unfold fold_forest
      rw [h1, h2]
    have hq : (100 : Nat) / 5 = 20 := by decide
    have hcol : size_sub 3 1 = 2 := by decide
    have hnc : ∀ f : Nat, fold_num_correct data 100 3 5 p f
        = (List.range' (20 * f) 20).countP
            (fun row_id => decide (p f row_id = double_to_int (data row_id 2))) := by
      intro f
      unfold fold_num_correct
      rw [hq, hcol, Nat.mul_comm f 20]
    have h := (cross_validate_of_predictions train_model predict_model data params 100 3 5 p
      (by decide) (by decide) (by decide) (by
        intro f hf row_id h1 h2
        rw [hq, Nat.mul_comm f 20] at h1 h2
        rw [hfold f hf]
        exact hpred f hf row_id h1 h2)).2.1
    rw [h]
    simp only [hnc, hq]
    congr 2
    simp only [List.range_succ, List.range_zero, List.nil_append, List.map_cons, List.map_nil,
      List.cons_append, List.sum_cons, List.sum_nil]
    push_cast
    ring

/-- C8, for a table of 100 rows and 3 columns whose label is the parity of the row index, 5
folds and a predictor that always answers 1. -/
theorem test_blocks_partition_witness :
    cross_validate (fun _ _ _ _ => ()) (fun (_ : Unit) _ _ => Run.ret 1)
        (fun r c => if c = 2 then ((r % 2 : Nat) : ℚ) else 0)
        { n_estimators := 20, max_depth := 7, min_samples_leaf := 3, max_features := 20 }
        { rows := 100, cols := 3 } 5
      = Run.ret (some ((
          (((List.range' 0 20).countP (fun row_id => decide ((fun (_ _ : Nat) => (1 : Int)) 0
            row_id = double_to_int ((fun (r c : Nat) => if c = 2 then ((r % 2 : Nat) : ℚ) else 0)
              row_id 2))) : Nat) : ℚ) / 20
          + (((List.range' 20 20).countP (fun row_id => decide ((fun (_ _ : Nat) => (1 : Int)) 1
            row_id = double_to_int ((fun (r c : Nat) => if c = 2 then ((r % 2 : Nat) : ℚ) else 0)
              row_id 2))) : Nat) : ℚ) / 20
          + (((List.range' 40 20).countP (fun row_id => decide ((fun (_ _ : Nat) => (1 : Int)) 2
            row_id = double_to_int ((fun (r c : Nat) => if c = 2 then ((r % 2 : Nat) : ℚ) else 0)
              row_id 2))) : Nat) : ℚ) / 20
          + (((List.range' 60 20).countP (fun row_id => decide ((fun (_ _ : Nat) => (1 : Int)) 3
            row_id = double_to_int ((fun (r c : Nat) => if c = 2 then ((r % 2 : Nat) : ℚ) else 0)
              row_id 2))) : Nat) : ℚ) / 20
          + (((List.range' 80 20).countP (fun row_id => decide ((fun (_ _ : Nat) => (1 : Int)) 4
            row_id = double_to_int ((fun (r c : Nat) => if c = 2 then ((r % 2 : Nat) : ℚ) else 0)
              row_id 2))) : Nat) : ℚ) / 20)
          / 5)) :=
  (test_blocks_partition 100 3 5 (by decide) (by decide) (by decide)).2.2.2.2.2.2 Unit
    (fun _ _ _ _ => ()) (fun (_ : Unit) _ _ => Run.ret 1)
    (fun r c => if c = 2 then ((r % 2 : Nat) : ℚ) else 0)
    { n_estimators := 20, max_depth := 7, min_samples_leaf := 3, max_features := 20 }
    (fun _ _ => 1) (fun _ _ _ _ _ => rfl)

/-- C11, at a table of 1 row with 2 folds: `rowsPerFold` is 0, `eval_model` visits no row and
returns `0 / 0`, which is NaN, and so does `cross_validate`: neither value is in [0, 1]. -/
theorem cross_validate_nan_on_empty_fold {F : Type}
    (train_model : (Nat → Option (Nat → ℚ)) → RandomForestParameters → dim → ModelContext → F)
    (predict_model : F → Nat → (Nat → ℚ) → Run Int) (data : Nat → Nat → ℚ)
    (params : RandomForestParameters) (cols : Nat) :
    (∀ f : Nat, f < 2 →
      eval_model predict_model
          (fold_forest train_model data params { rows := 1, cols := cols } 2 f) data params
          { rows := 1, cols := cols }
          (cross_validate_fold data { rows := 1, cols := cols } 2 f).ctx = Run.ret none) ∧
    cross_validate train_model predict_model data params { rows := 1, cols := cols } 2
      = Run.ret none := by
  have heval : ∀ f : Nat, f < 2 →
      eval_model predict_model
          (fold_forest train_model data params { rows := 1, cols := cols } 2 f) data params
          { rows := 1, cols := cols }
          (cross_validate_fold data { rows := 1, cols := cols } 2 f).ctx = Run.ret none := by
    intro f hf
    rw [eval_model_of_predictions predict_model _ data params 1 cols 2 f (fun _ _ => 0) hf
      (by decide) (by
        intro row_id h1 h2
        have h0 : (1 : Nat) / 2 = 0 := by decide
        rw [h0] at h1 h2
        omega)]
    have h0 : (1 : Nat) / 2 = 0 := by decide
    simp only [h0, double_div, Nat.cast_zero, if_true]
  refine ⟨heval, ?_⟩
  unfold cross_validate
  rw [cross_validate_loop_ret train_model predict_model data params _ 2 (fun _ => none)
    (List.range 2) (some 0) (fun f hf => heval f (List.mem_range.1 hf))]
  rfl

/-- C16, refuted: on a table of 1 row whose label is 2, with a predictor that answers 0,
`eval_model` does not end the run: it returns the fold accuracy 0. -/
theorem eval_model_returns_on_label_two :
    double_to_int ((fun (_ _ : Nat) => (2 : ℚ)) 0 (size_sub 1 1)) = 2 ∧
    eval_model (fun (_ : Unit) _ _ => Run.ret 0) () (fun _ _ => (2 : ℚ))
        { n_estimators := 20, max_depth := 7, min_samples_leaf := 3, max_features := 20 }
        { rows := 1, cols := 1 } { testingFoldIdx := 0, rowsPerFold := 1 }
      = Run.ret (some 0) := by
  constructor
  · decide
  · have hrows : eval_model_rows { testingFoldIdx := 0, rowsPerFold := 1 } = [0] := by decide
    have hgt : double_to_int (2 : ℚ) = 2 := by decide
    unfold eval_model
    simp only [hrows, eval_model_loop, hgt]
    simp [double_div]

/-- C16, amended. `eval_model` ends the run exactly when `predict_model` ends it on a row of
the test block, as it does on a predicted label outside {0,1}; the ground-truth label is not
checked, and `eval_model` returns a fold accuracy whenever the predictor returns on every row
of the block. -/
theorem eval_model_exit_iff {F : Type} (predict_model : F → Nat → (Nat → ℚ) → Run Int)
    (random_forest : F) (data : Nat → Nat → ℚ) (params : RandomForestParameters)
    (csv_dim : dim) (ctx : ModelContext) :
    ((∃ code, eval_model predict_model random_forest data params csv_dim ctx = Run.exit code)
      ↔ ∃ row_id ∈ eval_model_rows ctx, ∃ code,
          predict_model random_forest params.n_estimators (data row_id) = Run.exit code) ∧
    ((∃ accuracy, eval_model predict_model random_forest data params csv_dim ctx
        = Run.ret accuracy)
      ↔ ¬ ∃ row_id ∈ eval_model_rows ctx, ∃ code,
          predict_model random_forest params.n_estimators (data row_id) = Run.exit code) := by
  have hloop := eval_model_loop_exit
    (fun row_id => predict_model random_forest params.n_estimators (data row_id))
    (fun row_id => double_to_int (data row_id (size_sub csv_dim.cols 1)))
    (eval_model_rows ctx) 0
  have hexit : (∃ code, eval_model predict_model random_forest data params csv_dim ctx
      = Run.exit code)
      ↔ ∃ row_id ∈ eval_model_rows ctx, ∃ code,
          predict_model random_forest params.n_estimators (data row_id) = Run.exit code := by
    rw [← hloop]
    unfold eval_model
    cases eval_model_loop
      (fun row_id => predict_model random_forest params.n_estimators (data row_id))
      (fun row_id => double_to_int (data row_id (size_sub csv_dim.cols 1)))
      (eval_model_rows ctx) 0 with
    | exit code => simp
    | ret n => simp
  refine ⟨hexit, ?_⟩
  rw [← hexit]
  cases eval_model predict_model random_forest data params csv_dim ctx with
  | exit code => simp
  | ret accuracy => simp

/-! ## Hyperparameter search -/

theorem hyperparameter_search_depths_recorded (acc : RandomForestParameters → Option ℚ)
    (n mf msl k : Nat) (l : List Nat) (st : SearchState (List (RandomForestParameters × Nat))) :
    ∃ st1, hyperparameter_search_depths (recorded_cross_validate acc) n mf msl k l st
        = Run.ret st1 ∧
      st1.world = st.world ++ l.map (fun d =>
        (({ n_estimators := n, max_depth := d, min_samples_leaf := msl, max_features := mf }
          : RandomForestParameters), k)) := by
  induction l generalizing st with
  | nil => exact ⟨st, rfl, by simp⟩
  | cons d rest ih =>
    simp only [hyperparameter_search_depths, recorded_cross_validate]
    split_ifs
    · obtain ⟨st1, h1, h2⟩ := ih _
      exact ⟨st1, h1, by rw [h2]; simp⟩
    · obtain ⟨st1, h1, h2⟩ := ih _
      exact ⟨st1, h1, by rw [h2]; simp⟩

theorem hyperparameter_search_estimators_recorded (acc : RandomForestParameters → Option ℚ)
    (depths : List Nat) (mf msl k : Nat) (es : List Nat)
    (st : SearchState (List (RandomForestParameters × Nat))) :
    ∃ st1, hyperparameter_search_estimators (recorded_cross_validate acc) depths mf msl k es st
        = Run.ret st1 ∧
      st1.world = st.world ++ es.flatMap (fun n => depths.map (fun d =>
        (({ n_estimators := n, max_depth := d, min_samples_leaf := msl, max_features := mf }
          : RandomForestParameters), k))) := by
  induction es generalizing st with
  | nil => exact ⟨st, rfl, by simp⟩
  | cons n rest ih =>
    obtain ⟨st1, h1, h2⟩ := hyperparameter_search_depths_recorded acc n mf msl k depths st
    obtain ⟨st2, h3, h4⟩ := ih st1
    refine ⟨st2, ?_, ?_⟩
    · simp only [hyperparameter_search_estimators, h1]
      exact h3
    · rw [h4, h2]
      simp

/-- C12. Whatever accuracies `cross_validate` returns, `hyperparameter_search` calls it 9
times, for the pairs `(n_estimators, max_depth)` = (10,3), (10,7), (10,10), (50,3), (50,7),
(50,10), (100,3), (100,7), (100,10) in this order, each time with `min_samples_leaf = 2`,
`max_features = 3` and `k_folds = 5`. -/
theorem hyperparameter_search_calls (acc : RandomForestParameters → Option ℚ) :
    ∃ st, hyperparameter_search (recorded_cross_validate acc) [] = Run.ret st ∧
      st.world.length = 9 ∧
      st.world =
        [({ n_estimators := 10, max_depth := 3, min_samples_leaf := 2, max_features := 3 }, 5),
         ({ n_estimators := 10, max_depth := 7, min_samples_leaf := 2, max_features := 3 }, 5),
         ({ n_estimators := 10, max_depth := 10, min_samples_leaf := 2, max_features := 3 }, 5),
         ({ n_estimators := 50, max_depth := 3, min_samples_leaf := 2, max_features := 3 }, 5),
         ({ n_estimators := 50, max_depth := 7, min_samples_leaf := 2, max_features := 3 }, 5),
         ({ n_estimators := 50, max_depth := 10, min_samples_leaf := 2, max_features := 3 }, 5),
         ({ n_estimators := 100, max_depth := 3, min_samples_leaf := 2, max_features := 3 }, 5),
         ({ n_estimators := 100, max_depth := 7, min_samples_leaf := 2, max_features := 3 }, 5),
         ({ n_estimators := 100, max_depth := 10, min_samples_leaf := 2, max_features := 3 }, 5)]
      := by
  obtain ⟨st, h1, h2⟩ := hyperparameter_search_estimators_recorded acc [3, 7, 10] 3 2 5
    [10, 50, 100] { best_accuracy := some (-1), best_n_estimators := SIZE_MAX, world := [] }
  refine ⟨st, h1, ?_, ?_⟩
  · rw [h2]
    rfl
  · rw [h2]
    rfl

/-- The state of the search after the configurations `scanned`: the initial one when none is
scanned, and the first best of them otherwise. -/
theorem search_step (acc : Nat → Nat → ℚ) (scanned : List (Nat × Nat)) (best : Option ℚ)
    (best_n n d : Nat)
    (hinv : (scanned = [] ∧ best = some (-1)) ∨ first_best acc scanned best best_n)
    (h0 : 0 ≤ acc n d) :
    (double_gt (some (acc n d)) best = true →
      first_best acc (scanned ++ [(n, d)]) (some (acc n d)) n) ∧
    (¬ double_gt (some (acc n d)) best = true →
      first_best acc (scanned ++ [(n, d)]) best best_n) := by
  rcases hinv with ⟨hnil, hbest⟩ | ⟨pre, c, post, hsc, hbest, hn, hpre, hpost⟩
  · subst hnil hbest
    constructor
    · intro _
      exact ⟨[], (n, d), [], rfl, rfl, rfl, by simp, by simp⟩
    · intro hgt
      exfalso
      apply hgt
      simp only [double_gt, decide_eq_true_eq]
      linarith
  · subst hbest hsc
    constructor
    · intro hgt
      simp only [double_gt, decide_eq_true_eq] at hgt
      refine ⟨pre ++ c :: post, (n, d), [], by simp, rfl, rfl, ?_, by simp⟩
      intro e he
      rcases List.mem_append.1 he with h | h
      · exact lt_trans (hpre e h) hgt
      · rcases List.mem_cons.1 h with h2 | h2
        · rw [h2]
          exact hgt
        · exact lt_of_le_of_lt (hpost e h2) hgt
    · intro hgt
      simp only [double_gt, decide_eq_true_eq, not_lt] at hgt
      refine ⟨pre, c, post ++ [(n, d)], by simp, rfl, hn, hpre, ?_⟩
      intro e he
      rcases List.mem_append.1 he with h | h
      · exact hpost e h
      · rw [List.mem_singleton.1 h]
        exact hgt

theorem hyperparameter_search_depths_best (acc : Nat → Nat → ℚ) (n mf msl k : Nat)
    (l : List Nat) (scanned : List (Nat × Nat)) (st : SearchState Unit)
    (hinv : (scanned = [] ∧ st.best_accuracy = some (-1))
      ∨ first_best acc scanned st.best_accuracy st.best_n_estimators)
    (h0 : ∀ d ∈ l, 0 ≤ acc n d) :
    ∃ st1, hyperparameter_search_depths (assigned_cross_validate acc) n mf msl k l st
        = Run.ret st1 ∧
      ((scanned ++ l.map (fun d => (n, d)) = [] ∧ st1.best_accuracy = some (-1))
        ∨ first_best acc (scanned ++ l.map (fun d => (n, d))) st1.best_accuracy
            st1.best_n_estimators) := by
  induction l generalizing scanned st with
  | nil => exact ⟨st, rfl, by simpa using hinv⟩
  | cons d rest ih =>
    have hstep := search_step acc scanned st.best_accuracy st.best_n_estimators n d hinv
      (h0 d (List.mem_cons_self _ _))
    have hrest : ∀ e ∈ rest, 0 ≤ acc n e := fun e he => h0 e (List.mem_cons_of_mem _ he)
    have hlist : scanned ++ List.map (fun d => (n, d)) (d :: rest)
        = (scanned ++ [(n, d)]) ++ List.map (fun d => (n, d)) rest := by simp
    rw [hlist]
    simp only [hyperparameter_search_depths, assigned_cross_validate]
    split_ifs with hgt
    · exact ih (scanned ++ [(n, d)]) _ (Or.inr (hstep.1 hgt)) hrest
    · exact ih (scanned ++ [(n, d)]) _ (Or.inr (hstep.2 hgt)) hrest

theorem hyperparameter_search_estimators_best (acc : Nat → Nat → ℚ) (depths : List Nat)
    (mf msl k : Nat) (es : List Nat) (scanned : List (Nat × Nat)) (st : SearchState Unit)
    (hinv : (scanned = [] ∧ st.best_accuracy = some (-1))
      ∨ first_best acc scanned st.best_accuracy st.best_n_estimators)
    (h0 : ∀ n ∈ es, ∀ d ∈ depths, 0 ≤ acc n d) :
    ∃ st1, hyperparameter_search_estimators (assigned_cross_validate acc) depths mf msl k es st
        = Run.ret st1 ∧
      ((scanned ++ es.flatMap (fun n => depths.map (fun d => (n, d))) = []
          ∧ st1.best_accuracy = some (-1))
        ∨ first_best acc (scanned ++ es.flatMap (fun n => depths.map (fun d => (n, d))))
            st1.best_accuracy st1.best_n_estimators) := by
  induction es generalizing scanned st with
  | nil => exact ⟨st, rfl, by simpa using hinv⟩
  | cons n rest ih =>
    obtain ⟨st1, h1, h2⟩ := hyperparameter_search_depths_best acc n mf msl k depths scanned st
      hinv (h0 n (List.mem_cons_self _ _))
    obtain ⟨st2, h3, h4⟩ := ih (scanned ++ depths.map (fun d => (n, d))) st1 h2
      (fun e he => h0 e (List.mem_cons_of_mem _ he))
    refine ⟨st2, ?_, ?_⟩
    · simp only [hyperparameter_search_estimators, h1]
      exact h3
    · have hlist : scanned ++ (n :: rest).flatMap (fun n => depths.map (fun d => (n, d)))
          = (scanned ++ depths.map (fun d => (n, d)))
            ++ rest.flatMap (fun n => depths.map (fun d => (n, d))) := by simp
      rw [hlist]
      exact h4

/-- C13. For accuracies in [0, 1] assigned to the 9 configurations of the grid,
`hyperparameter_search` ends with `best_accuracy` the largest of the 9 accuracies and
`best_n_estimators` the tree count of the first configuration, in the order of the grid, that
has it: every earlier configuration has a strictly smaller accuracy and no later one a larger
one, so a later configuration of equal accuracy does not replace it. -/
theorem hyperparameter_search_best (acc : Nat → Nat → ℚ)
    (hacc : ∀ c ∈ search_grid, 0 ≤ acc c.1 c.2 ∧ acc c.1 c.2 ≤ 1) :
    ∃ st, hyperparameter_search (assigned_cross_validate acc) () = Run.ret st ∧
      ∃ pre c post, search_grid = pre ++ c :: post ∧
        st.best_accuracy = some (acc c.1 c.2) ∧ st.best_n_estimators = c.1 ∧
        (∀ d ∈ pre, acc d.1 d.2 < acc c.1 c.2) ∧ (∀ d ∈ post, acc d.1 d.2 ≤ acc c.1 c.2) := by
  have hgrid : ([] : List (Nat × Nat))
      ++ [10, 50, 100].flatMap (fun n => [3, 7, 10].map (fun d => (n, d))) = search_grid := rfl
  have h0 : ∀ n ∈ [10, 50, 100], ∀ d ∈ [3, 7, 10], 0 ≤ acc n d := by
    intro n hn d hd
    have hmem : (n, d) ∈ search_grid := by
      rw [← hgrid]
      simp only [List.nil_append, List.mem_flatMap, List.mem_map]
      exact ⟨n, hn, d, hd, rfl⟩
    exact (hacc (n, d) hmem).1
  obtain ⟨st, h1, h2⟩ := hyperparameter_search_estimators_best acc [3, 7, 10] 3 2 5
    [10, 50, 100] [] { best_accuracy := some (-1), best_n_estimators := SIZE_MAX, world := () }
    (Or.inl ⟨rfl, rfl⟩) h0
  rw [hgrid] at h2
  refine ⟨st, h1, ?_⟩
  rcases h2 with ⟨hnil, _⟩ | hbest
  · exact absurd hnil (by decide)
  · exact hbest

/-- C13, for the accuracy 1/2 on every configuration: the first one, with 10 trees, wins. -/
theorem hyperparameter_search_best_witness :
    ∃ st, hyperparameter_search (assigned_cross_validate (fun _ _ => 1 / 2)) () = Run.ret st ∧
      ∃ pre c post, search_grid = pre ++ c :: post ∧
        st.best_accuracy = some ((fun (_ _ : Nat) => (1 / 2 : ℚ)) c.1 c.2) ∧
        st.best_n_estimators = c.1 ∧
        (∀ d ∈ pre, (fun (_ _ : Nat) => (1 / 2 : ℚ)) d.1 d.2
          < (fun (_ _ : Nat) => (1 / 2 : ℚ)) c.1 c.2) ∧
        (∀ d ∈ post, (fun (_ _ : Nat) => (1 / 2 : ℚ)) d.1 d.2
          ≤ (fun (_ _ : Nat) => (1 / 2 : ℚ)) c.1 c.2) :=
  hyperparameter_search_best (fun _ _ => 1 / 2) (by intro c _; norm_num)

/-! ## The broadcasts and the seeds of `train_model` -/

theorem bcast_count_iteration (rank start_tree : Int) (uninit : Nat → Nat)
    (rand_value : Nat → Int) (bcast : Nat → Nat) (i : Nat) :
    bcast_count (train_model_iteration rank start_tree uninit rand_value bcast i) = 2 := by
  unfold bcast_count train_model_iteration
  by_cases h : rank = 0
  · simp [h, List.countP_cons]
  · simp [h, List.countP_cons]

theorem bcast_count_flatMap (f : Nat → List Call) (l : List Nat)
    (hf : ∀ i, bcast_count (f i) = 2) : bcast_count (l.flatMap f) = 2 * l.length := by
  induction l with
  | nil => rfl
  | cons i rest ih =>
    have happ : bcast_count (f i ++ rest.flatMap f)
        = bcast_count (f i) + bcast_count (rest.flatMap f) := by
      unfold bcast_count
      exact List.countP_append _ _ _
    rw [List.flatMap_cons, happ, hf i, ih, List.length_cons]
    ring

/-- A rank makes two broadcasts for each tree it builds. -/
theorem bcast_count_train_model (rank numtasks : Int) (n_estimators : Nat) (uninit : Nat → Nat)
    (rand_value : Nat → Int) (bcast : Nat → Nat) :
    bcast_count (train_model_calls rank numtasks n_estimators uninit rand_value bcast)
      = 2 * (train_model_range rank numtasks n_estimators).local_n_trees.toNat := by
  unfold train_model_calls
  rw [bcast_count_flatMap _ _ (bcast_count_iteration rank _ uninit rand_value bcast),
    List.length_range]

/-- C14, at 3 processes and 7 trees: rank 0 builds 3 trees and makes 6 broadcasts, the ranks 1
and 2 build 2 trees and make 4 broadcasts each; the last two broadcasts of rank 0 are matched
by no call of the other ranks. -/
theorem train_model_bcast_counts_differ (uninit : Int → Nat → Nat) (rand_value : Nat → Int) :
    bcast_count (train_model_group_calls 3 7 uninit rand_value 0) = 6 ∧
    bcast_count (train_model_group_calls 3 7 uninit rand_value 1) = 4 ∧
    bcast_count (train_model_group_calls 3 7 uninit rand_value 2) = 4 ∧
    bcast_count (train_model_group_calls 3 7 uninit rand_value 0)
      ≠ bcast_count (train_model_group_calls 3 7 uninit rand_value 1) := by
  have h0 : bcast_count (train_model_group_calls 3 7 uninit rand_value 0) = 6 := by
    unfold train_model_group_calls
    rw [bcast_count_train_model]
    decide
  have h1 : bcast_count (train_model_group_calls 3 7 uninit rand_value 1) = 4 := by
    unfold train_model_group_calls
    rw [bcast_count_train_model]
    decide
  have h2 : bcast_count (train_model_group_calls 3 7 uninit rand_value 2) = 4 := by
    unfold train_model_group_calls
    rw [bcast_count_train_model]
    decide
  refine ⟨h0, h1, h2, ?_⟩
  rw [h0, h1]
  decide

theorem root_buffer_second (uninit0 : Nat → Nat) (rand_value : Nat → Int) (i : Nat) :
    root_buffer uninit0 rand_value (2 * i + 1) = to_unsigned (rand_value i) := by
  unfold root_buffer
  have h1 : (2 * i + 1) % 2 ≠ 0 := by omega
  have h2 : (2 * i + 1) / 2 = i := by omega
  rw [if_neg h1, h2]

theorem root_buffer_first (uninit0 : Nat → Nat) (rand_value : Nat → Int) (i : Nat) :
    root_buffer uninit0 rand_value (2 * i) = uninit0 i := by
  unfold root_buffer
  have h1 : (2 * i) % 2 = 0 := by omega
  have h2 : (2 * i) / 2 = i := by omega
  rw [if_pos h1, h2]

theorem train_model_run_seed_eq (numtasks n_estimators : Nat) (uninit : Int → Nat → Nat → Nat)
    (rand_value : Nat → Nat → Int) (rank : Int) (call i : Nat) :
    train_model_run_seed numtasks n_estimators uninit rand_value rank call i
      = ((if rank = 0 then to_unsigned (rand_value call i)
          else root_run_buffer
            (train_model_range 0 numtasks n_estimators).local_n_trees.toNat (uninit 0) rand_value
            (call * (2 * (train_model_range rank numtasks n_estimators).local_n_trees.toNat)
              + (2 * i + 1)))
        + to_unsigned (wrap_int
          ((train_model_range rank numtasks n_estimators).start_tree + i))) % 4294967296 := by
  unfold train_model_run_seed train_model_tree_seed
  simp only []
  by_cases h : rank = 0
  · simp only [h, if_true]
  · simp only [h, if_false]

theorem root_run_buffer_matched (L0 : Nat) (uninit0 : Nat → Nat → Nat)
    (rand_value : Nat → Nat → Int) (call i : Nat) (hi : i < L0) :
    root_run_buffer L0 uninit0 rand_value (call * (2 * L0) + (2 * i + 1))
      = to_unsigned (rand_value call i) := by
  unfold root_run_buffer
  have hpos : 0 < 2 * L0 := by omega
  have hlt : 2 * i + 1 < 2 * L0 := by omega
  have hdiv : (call * (2 * L0) + (2 * i + 1)) / (2 * L0) = call := by
    rw [Nat.add_comm, Nat.add_mul_div_right _ _ hpos, Nat.div_eq_of_lt hlt, Nat.zero_add]
  have hmod : (call * (2 * L0) + (2 * i + 1)) % (2 * L0) = 2 * i + 1 := by
    rw [Nat.add_comm, Nat.add_mul_mod_self_right, Nat.mod_eq_of_lt hlt]
  rw [hdiv, hmod, root_buffer_second]

theorem root_run_buffer_odd (L0 : Nat) (uninit0 : Nat → Nat → Nat)
    (rand_value : Nat → Nat → Int) (j : Nat) (hodd : j % (2 * L0) % 2 = 1) :
    root_run_buffer L0 uninit0 rand_value j
      = to_unsigned (rand_value (j / (2 * L0)) (j % (2 * L0) / 2)) := by
  unfold root_run_buffer root_buffer
  rw [if_neg (by omega)]

/-- In a call that the rank enters with as many broadcasts made as rank 0, which is the first
call of the run and every call of a rank that builds as many trees as rank 0, `srand` is
called with `(s + tree_id) mod 2^32`, `s` being the value that rank 0 draws in its iteration
`i` of the same call. -/
theorem train_model_seed_when_matched (P N r call i : Nat) (uninit : Int → Nat → Nat → Nat)
    (rand_value : Nat → Nat → Int) (hP : 1 ≤ P) (hN : (N : Int) ≤ INT_MAX) (hr : r < P)
    (hi : (i : Int) < (train_model_range r P N).local_n_trees)
    (hmatched : call = 0 ∨
      (train_model_range r P N).local_n_trees = (train_model_range 0 P N).local_n_trees) :
    ((train_model_run_seed P N uninit rand_value r call i : Nat) : Int)
      = (rand_value call i + ((train_model_range r P N).start_tree + i)) % 4294967296 := by
  have hshare := train_model_range_share P N r hP hN hr
  have hshare0 := train_model_range_share P N 0 hP hN (by omega)
  have hmono := share_start_le_succ P N r
  have hle := share_start_le P N (r + 1) hP (by omega)
  have hN2 : (N : Int) ≤ 2147483647 := hN
  have hloc : (train_model_range r P N).local_n_trees
      ≤ (train_model_range 0 P N).local_n_trees := by
    have h1 := (train_model_range_eq r P N (by exact_mod_cast hP) hN (Int.ofNat_nonneg r)
      (by exact_mod_cast hr))
    have h0 := (train_model_range_eq 0 P N (by exact_mod_cast hP) hN (le_refl _)
      (by exact_mod_cast (show 0 < P by omega)))
    rw [h1, h0]
    simp only []
    split_ifs <;> omega
  have hbuf : (if (r : Int) = 0 then to_unsigned (rand_value call i)
      else root_run_buffer (train_model_range 0 P N).local_n_trees.toNat (uninit 0) rand_value
        (call * (2 * (train_model_range r P N).local_n_trees.toNat) + (2 * i + 1)))
      = to_unsigned (rand_value call i) := by
    split_ifs with h0
    · rfl
    · rcases hmatched with hc | hl
      · subst hc
        have h := root_run_buffer_matched (train_model_range 0 P N).local_n_trees.toNat
          (uninit 0) rand_value 0 i (by omega)
        simp only [Nat.zero_mul, Nat.zero_add] at h ⊢
        exact h
      · rw [hl]
        exact root_run_buffer_matched _ _ _ call i (by omega)
  rw [train_model_run_seed_eq]
  simp only [Nat.cast_zero] at hbuf
  rw [hbuf]
  rw [hshare] at hi ⊢
  simp only [] at hi ⊢
  rw [wrap_int_of_range (by omega) (by omega)]
  unfold to_unsigned
  omega

/-- C15, at 3 processes and 7 trees, when rank 0 draws `1000 + i` in the iteration `i` of the
first call of `train_model` and `2000 + i` in the iteration `i` of the second call. Rank 1
builds the trees 3 and 4. In the first call its seeds are 1003 and 1005, made of the values
rank 0 draws in the same iterations. In the second call its seeds are 1005 and 2004 and not
2003 and 2005: rank 1 has made 4 broadcasts in the first call and rank 0 has made 6, so the
broadcasts of rank 1 are matched with broadcasts that rank 0 made two calls earlier. -/
theorem train_model_second_call_seeds (uninit : Int → Nat → Nat → Nat) :
    train_model_run_seed 3 7 uninit (fun call i => 1000 * ((call : Int) + 1) + (i : Int)) 1 0 0
      = 1003 ∧
    train_model_run_seed 3 7 uninit (fun call i => 1000 * ((call : Int) + 1) + (i : Int)) 1 0 1
      = 1005 ∧
    train_model_run_seed 3 7 uninit (fun call i => 1000 * ((call : Int) + 1) + (i : Int)) 1 1 0
      = 1005 ∧
    train_model_run_seed 3 7 uninit (fun call i => 1000 * ((call : Int) + 1) + (i : Int)) 1 1 1
      = 2004 ∧
    (train_model_range 1 3 7).start_tree = 3 ∧
    to_unsigned ((fun (call i : Nat) => 1000 * ((call : Int) + 1) + (i : Int)) 1 0
      + ((train_model_range 1 3 7).start_tree + 0)) = 2003 ∧
    to_unsigned ((fun (call i : Nat) => 1000 * ((call : Int) + 1) + (i : Int)) 1 1
      + ((train_model_range 1 3 7).start_tree + 1)) = 2005 := by
  have hL0 : (train_model_range 0 ((3 : Nat) : Int) 7).local_n_trees.toNat = 3 := by decide
  have hL1 : (train_model_range 1 ((3 : Nat) : Int) 7).local_n_trees.toNat = 2 := by decide
  have hs : (train_model_range 1 ((3 : Nat) : Int) 7).start_tree = 3 := by decide
  have hne : ¬ ((1 : Int) = 0) := by decide
  refine ⟨?_, ?_, ?_, ?_, by decide, by decide, by decide⟩
  · rw [train_model_run_seed_eq, hL0, hL1, hs, if_neg hne]
    rw [root_run_buffer_odd _ _ _ _ (by decide)]
    decide
  · rw [train_model_run_seed_eq, hL0, hL1, hs, if_neg hne]
    rw [root_run_buffer_odd _ _ _ _ (by decide)]
    decide
  · rw [train_model_run_seed_eq, hL0, hL1, hs, if_neg hne]
    rw [root_run_buffer_odd _ _ _ _ (by decide)]
    decide
  · rw [train_model_run_seed_eq, hL0, hL1, hs, if_neg hne]
    rw [root_run_buffer_odd _ _ _ _ (by decide)]
    decide

/-! ## The seed of the run -/

theorem parse_args_loop_random_seed (atoi atol : String → Int) (n : Nat) :
    ∀ (l : List String) (a : arguments), l.length ≤ n →
      (parse_args_loop atoi atol l a).random_seed
        = match seed_option l with
          | some v => atoi v
          | none => a.random_seed := by
  induction n with
  | zero =>
    intro l a hl
    have hnil : l = [] := List.length_eq_zero.1 (by omega)
    subst hnil
    simp [parse_args_loop, seed_option]
  | succ n ih =>
    intro l a hl
    match l, hl with
    | [], _ => simp [parse_args_loop, seed_option]
    | [x], _ =>
      simp only [parse_args_loop, seed_option]
      split_ifs <;> rfl
    | x :: v :: rest, hl =>
      have hrest : rest.length ≤ n := by
        simp only [List.length_cons] at hl
        omega
      have htail : (v :: rest).length ≤ n := by
        simp only [List.length_cons] at hl ⊢
        omega
      simp only [parse_args_loop, seed_option]
      by_cases h1 : x = "--num_rows"
      · simp only [h1, if_true, true_or]
        rw [ih rest _ hrest]
      · by_cases h2 : x = "--num_cols"
        · simp only [h2, if_true, true_or, or_true]
          rw [if_neg (by decide), ih rest _ hrest]
        · by_cases h3 : starts_with "--log_level=" x = true
          · have h4 : x ≠ "--log_level" := by
              intro h
              rw [h] at h3
              exact absurd h3 (by decide)
            have h5 : x ≠ "--seed" := by
              intro h
              rw [h] at h3
              exact absurd h3 (by decide)
            simp only [h1, h2, h3, h4, h5, if_true, if_false, or_self]
            rw [ih (v :: rest) _ htail]
          · by_cases h4 : x = "--log_level"
            · simp only [h1, h2, h3, h4, if_true, if_false, or_true]
              rw [if_neg (by decide), if_neg (by decide), if_neg (by decide),
                ih rest _ hrest]
            · by_cases h5 : x = "--seed"
              · simp only [h5, if_true]
                rw [if_neg (by decide), if_neg (by decide), if_neg (by decide),
                  if_neg (by decide), if_neg (by decide), ih rest _ hrest]
                cases seed_option rest <;> rfl
              · simp only [h1, h2, h3, h4, h5, if_false, or_self]
                split_ifs <;> exact ih (v :: rest) _ htail

theorem parse_args_random_seed (atoi atol : String → Int) (RAND_MAX : Int)
    (argv : List String) :
    (parse_args atoi atol RAND_MAX argv).random_seed
      = match seed_option argv.tail with
        | some v => atoi v
        | none => RAND_MAX := by
  unfold parse_args
  rw [parse_args_loop_random_seed atoi atol argv.tail.length argv.tail _ (le_refl _)]

/-- C17, refuted: with `RAND_MAX = 2147483647`, the command line
`prog data.csv --seed 2147483647` gives the seed `2147483647` with `--seed`, and the run,
started at the time 1700000000, uses the time-derived seed 1700000000. -/
theorem seed_rand_max_replaced_by_time :
    seed_option ["data.csv", "--seed", "2147483647"] = some "2147483647" ∧
    atoi_digits "2147483647" = 2147483647 ∧
    main_seed 2147483647
      (parse_args atoi_digits atoi_digits 2147483647
        ["prog", "data.csv", "--seed", "2147483647"]) 1700000000 = 1700000000 ∧
    (1700000000 : Nat) ≠ 2147483647 := by
  have hopt : seed_option ["data.csv", "--seed", "2147483647"] = some "2147483647" := by
    simp [seed_option]
  have hval : atoi_digits "2147483647" = 2147483647 := by decide
  refine ⟨hopt, hval, ?_, by decide⟩
  unfold main_seed
  rw [parse_args_random_seed]
  simp only [List.tail_cons, hopt, hval, ne_eq, not_true_eq_false, if_false]
  decide

/-- C17, amended. The run uses the value `N` given with the last `--seed` option of the command
line, reduced to an `unsigned int`, when `N` differs from `RAND_MAX`, the value 0 included; it
uses the time-derived seed when no `--seed` option with a value is given, and also when the
value given is `RAND_MAX`, the default by which `main` tells that no seed was given. -/
theorem main_seed_of_command_line (atoi atol : String → Int) (RAND_MAX : Int)
    (argv : List String) (time_now : Int) :
    main_seed RAND_MAX (parse_args atoi atol RAND_MAX argv) time_now
      = match seed_option argv.tail with
        | some v => if atoi v ≠ RAND_MAX then to_unsigned (atoi v) else to_unsigned time_now
        | none => to_unsigned time_now := by
  unfold main_seed
  rw [parse_args_random_seed]
  cases seed_option argv.tail with
  | none => simp
  | some v => rfl

end RandForest
